import Mathlib

set_option maxRecDepth 100000

/-!
Verification of the corpus ingestion / retrieval pipeline.

This file gives a shallow embedding of the core functions of the repository
(`src/bin/corpus_ingest_txt.py`, `src/bin/corpus_ingest_pdf.py`,
`src/bin/corpus_db_init.py`, `src/bin/ask_corpus.py`, `src/bin/work_link.py`)
and proves or refutes the stated properties about them.

Strings are modelled as `List Char` (Lean's `String` is a structure wrapping
`List Char`, so the two views are interchangeable).  Python's whitespace
class (`str.strip`, regex `\s`) is modelled by `pySpace` below, covering the
ASCII whitespace characters and the common Unicode space code points that
Python treats as whitespace.  Python's `str.lower` is modelled by
`Char.toLower` (ASCII case mapping); all inputs appearing in the concrete
theorems below are ASCII, where the two agree.
-/

/-- Python whitespace (re `\s` / `str.strip`): ASCII whitespace plus the
Unicode space code points. -/
def pySpace (c : Char) : Bool :=
  c == ' ' || c == '\t' || c == '\n' || c == '\u000B' || c == '\u000C' ||
  c == '\u000D' || c == '\u0085' || c == '\u00A0' || c == '\u1680' ||
  (0x2000 ≤ c.toNat && c.toNat ≤ 0x200A) ||
  c == '\u2028' || c == '\u2029' || c == '\u202F' || c == '\u205F' || c == '\u3000'

/-- Horizontal whitespace: the character class `[^\S\n]` of the normalizer,
i.e. whitespace other than the newline. -/
def hws (c : Char) : Bool := pySpace c && !(c == '\n')

/-- `raw.replace("\r\n", "\n").replace("\r", "\n")`
(corpus_ingest_txt.py line 23 / corpus_ingest_pdf.py line 29). -/
def crlfToLf : List Char → List Char
  | [] => []
  | '\u000D' :: '\n' :: rest => '\n' :: crlfToLf rest
  | '\u000D' :: rest => '\n' :: crlfToLf rest
  | c :: rest => c :: crlfToLf rest

/-- Worker for `re.sub(r"[^\S\n]+", " ", raw)`: the flag records whether we
are inside a run of horizontal whitespace (the run has already emitted its
single replacement space). -/
def collapseWsAux : Bool → List Char → List Char
  | _, [] => []
  | inRun, c :: rest =>
    if hws c then
      if inRun then collapseWsAux true rest
      else ' ' :: collapseWsAux true rest
    else c :: collapseWsAux false rest

/-- `re.sub(r"[^\S\n]+", " ", raw)` (corpus_ingest_txt.py line 24):
collapse each maximal run of non-newline whitespace to a single space. -/
def collapseWs (l : List Char) : List Char := collapseWsAux false l

/-- Worker for `re.sub(r"\n{4,}", "\n\n\n", raw)`: `n` counts the pending run
of newlines already scanned; a run of `n` newlines is emitted as
`min n 3` newlines. -/
def capNlAux : Nat → List Char → List Char
  | n, [] => List.replicate (min n 3) '\n'
  | n, c :: rest =>
    if c == '\n' then capNlAux (n + 1) rest
    else List.replicate (min n 3) '\n' ++ c :: capNlAux 0 rest

/-- `re.sub(r"\n{4,}", "\n\n\n", raw)` (corpus_ingest_txt.py line 25):
cap each run of 4 or more newlines to exactly 3. -/
def capNl (l : List Char) : List Char := capNlAux 0 l

/-- Python `str.lstrip()`. -/
def pyLStrip (l : List Char) : List Char := l.dropWhile pySpace

/-- Python `str.rstrip()`. -/
def pyRStrip (l : List Char) : List Char := (l.reverse.dropWhile pySpace).reverse

/-- Python `str.strip()`. -/
def pyStrip (l : List Char) : List Char := pyRStrip (pyLStrip l)

/-- `normalize_text` on character lists (corpus_ingest_txt.py lines 21-26,
identical in corpus_ingest_pdf.py lines 28-32): convert line endings, collapse
horizontal whitespace, cap newline runs, strip, append one newline. -/
def normalizeL (l : List Char) : List Char :=
  pyStrip (capNl (collapseWs (crlfToLf l))) ++ ['\n']

/-- `normalize_text(raw)` of the ingestion scripts. -/
def normalize_text (s : String) : String := ⟨normalizeL s.data⟩

/-! ## Paragraph splitting: `re.split(r"\n\s*\n", text)`

A separator match starts at a newline; the greedy `\s*` then extends through
the following whitespace run up to (and the final `\n` consumes) the last
newline inside that run.  `sepConsume rest` decides, for the text `rest`
following a newline, whether a separator match completes here, and if so
returns the text after the consumed separator. -/

/-- After an initial `'\n'`, try to complete a `\n\s*\n` separator match:
the whitespace prefix of `rest` must contain another newline; the match
consumes through the last newline of that prefix. -/
def sepConsume (rest : List Char) : Option (List Char) :=
  let pre := rest.takeWhile pySpace
  if pre.contains '\n' then
    let j := pre.reverse.indexOf '\n'
    some (rest.drop (pre.length - j))
  else none

/-- Worker for `re.split(r"\n\s*\n", text)`: leftmost, non-overlapping
separator matches.  `fuel` is the length of the remaining text (each step
consumes at least one character). -/
def splitGo : Nat → List Char → List Char → List (List Char)
  | 0, acc, _ => [acc.reverse]
  | _ + 1, acc, [] => [acc.reverse]
  | fuel + 1, acc, '\n' :: rest =>
    match sepConsume rest with
    | some rest' => acc.reverse :: splitGo fuel [] rest'
    | none => splitGo fuel ('\n' :: acc) rest
  | fuel + 1, acc, c :: rest => splitGo fuel (c :: acc) rest

/-- `re.split(r"\n\s*\n", text)` (corpus_ingest_txt.py line 30). -/
def splitParas (text : List Char) : List (List Char) :=
  splitGo text.length [] text

/-! ## The chunker `chunk_paragraph_aware`
(corpus_ingest_txt.py lines 28-74, corpus_ingest_pdf.py lines 34-72;
the two copies are identical except for the dead variable `pos` of the txt
version, which influences no emitted chunk).

A chunk record carries the emitted text and its `(start, end)` offsets as in
the source, plus one piece of derived bookkeeping used only to state the
coverage property: `ov`, the length of the chunk's overlap prefix (the part
of its text seeded from the previous chunk: the stripped overlap tail for a
buffer chunk, `overlap_chars` for a hard-split continuation slice, and `0`
for a chunk that was seeded from nothing). -/

structure ChunkRec where
  text : List Char
  start : Nat
  stop : Nat
  ov : Nat
deriving Repr, DecidableEq

/-- The blank-line separator `"\n\n"` used to join paragraphs in a buffer. -/
def nl2 : List Char := ['\n', '\n']

/-- Result of the hard-split `while` loop: the emitted slices, the remaining
buffer (`big` once it fits), its start offset and its overlap-prefix length. -/
structure HsRes where
  slices : List ChunkRec
  buf : List Char
  start : Nat
  ov : Nat
deriving Repr

/-- The hard-split loop (corpus_ingest_txt.py lines 59-66):
`while len(big) > target: part = big[:target]; emit(part, start, start+target);
big = big[target-overlap:]; start = end - overlap`.  `fuel` is an upper bound
on the length of `big` (each iteration shortens `big` by `T - O ≥ 1` whenever
`O < T`).  `ov` is the overlap-prefix length of the next slice to emit
(`0` at the entry of the loop, `O` afterwards). -/
def hardSplitAux (T O : Nat) : Nat → List Char → Nat → Nat → HsRes
  | 0, big, start, ov => ⟨[], big, start, ov⟩
  | fuel + 1, big, start, ov =>
    if T < big.length then
      let part := big.take T
      let e := start + T
      let r := hardSplitAux T O fuel (big.drop (T - O)) (e - O) O
      ⟨⟨part, start, e, ov⟩ :: r.slices, r.buf, r.start, r.ov⟩
    else ⟨[], big, start, ov⟩

/-- The chunker's running state: emitted chunks, the accumulation buffer with
its start offset, and the buffer's overlap-prefix length. -/
structure ChunkSt where
  chunks : List ChunkRec
  buf : List Char
  start : Nat
  bufOv : Nat
deriving Repr

/-- One iteration of the chunker's paragraph loop
(corpus_ingest_txt.py lines 39-68). -/
def chunkStep (T O : Nat) (st : ChunkSt) (praw : List Char) : ChunkSt :=
  let p := pyStrip praw
  if p.isEmpty then st
  else
    let candidate := st.buf ++ (if st.buf.isEmpty then [] else nl2) ++ p
    if candidate.length ≤ T then { st with buf := candidate }
    else if !st.buf.isEmpty then
      let e := st.start + st.buf.length
      let tailSeed :=
        if 0 < O && O < st.buf.length then st.buf.drop (st.buf.length - O) else []
      let nbuf := pyStrip (tailSeed ++ (if tailSeed.isEmpty then [] else nl2) ++ p)
      { chunks := st.chunks ++ [⟨st.buf, st.start, e, st.bufOv⟩],
        buf := nbuf,
        start := e - tailSeed.length,
        bufOv := (tailSeed.dropWhile pySpace).length }
    else
      let r := hardSplitAux T O p.length p st.start 0
      { chunks := st.chunks ++ r.slices, buf := r.buf, start := r.start, bufOv := r.ov }

/-- `chunk_paragraph_aware(text, target_chars, overlap_chars)`
(corpus_ingest_txt.py lines 28-74).  The ingestion scripts call it with the
default parameters `T = 2500`, `O = 200`. -/
def chunk_paragraph_aware (text : List Char) (T O : Nat) : List ChunkRec :=
  let st := (splitParas text).foldl (chunkStep T O) ⟨[], [], 0, 0⟩
  if st.buf.isEmpty then st.chunks
  else st.chunks ++ [⟨st.buf, st.start, st.start + st.buf.length, st.bufOv⟩]

/-- The non-empty stripped paragraphs of a text, in order: exactly the
paragraphs the chunker accumulates (empty ones are skipped). -/
def parasNE (text : List Char) : List (List Char) :=
  ((splitParas text).map pyStrip).filter (fun p => !p.isEmpty)

/-- Maximum length of a stripped paragraph of `text`. -/
def maxParaLen (text : List Char) : Nat :=
  ((splitParas text).map (fun p => (pyStrip p).length)).foldr max 0

/-- Concatenation of the chunks' texts with each chunk's overlap prefix
removed. -/
def concatNonOv : List ChunkRec → List Char
  | [] => []
  | c :: rest => c.text.drop c.ov ++ concatNonOv rest

/-! ## Hashes

The scripts derive identifiers with `hashlib.sha1(...).hexdigest()` and
content hashes with `hashlib.sha256(...).hexdigest()`.  Both are implemented
here over `Nat` byte lists with arithmetic modulo `2^32`. -/

/-- UTF-8 encoding of one character (Python `str.encode("utf-8")`). -/
def utf8Char (c : Char) : List Nat :=
  let n := c.toNat
  if n < 0x80 then [n]
  else if n < 0x800 then [0xC0 + n / 64, 0x80 + n % 64]
  else if n < 0x10000 then [0xE0 + n / 4096, 0x80 + n / 64 % 64, 0x80 + n % 64]
  else [0xF0 + n / 262144, 0x80 + n / 4096 % 64, 0x80 + n / 64 % 64, 0x80 + n % 64]

/-- UTF-8 bytes of a string. -/
def utf8Bytes (s : String) : List Nat := (s.data.map utf8Char).flatten

/-- Rotate a 32-bit word (a `Nat` below `2^32`) left by `k < 32` bits. -/
def rotl32 (x k : Nat) : Nat := (x * 2 ^ k + x / 2 ^ (32 - k)) % 2 ^ 32

/-- Rotate a 32-bit word right by `k < 32` bits. -/
def rotr32 (x k : Nat) : Nat := x / 2 ^ k + x % 2 ^ k * 2 ^ (32 - k)

/-- Bitwise complement of a 32-bit word. -/
def not32 (x : Nat) : Nat := x ^^^ 4294967295

/-- Lowercase hex digit. -/
def hexDigit (n : Nat) : Char :=
  if n < 10 then Char.ofNat (48 + n) else Char.ofNat (87 + n)

/-- 8-digit lowercase hex rendering of a 32-bit word. -/
def toHex32 (x : Nat) : List Char :=
  (List.range 8).map (fun i => hexDigit (x / 16 ^ (7 - i) % 16))

/-- Big-endian 8-byte rendering of a length-in-bits value. -/
def beBytes8 (n : Nat) : List Nat :=
  (List.range 8).map (fun i => n / 256 ^ (7 - i) % 256)

/-- Merkle-Damgard padding shared by SHA-1 and SHA-256: append `0x80`, zero
pad to 56 mod 64, append the 8-byte big-endian bit length. -/
def shaPad (msg : List Nat) : List Nat :=
  msg ++ [0x80] ++ List.replicate ((119 - msg.length % 64) % 64) 0 ++
    beBytes8 (8 * msg.length)

/-- Big-endian 32-bit words of a byte list. -/
def beWords : List Nat → List Nat
  | b0 :: b1 :: b2 :: b3 :: r => (((b0 * 256 + b1) * 256 + b2) * 256 + b3) :: beWords r
  | _ => []

/-- Indexing with default 0 into a word list. -/
def wref (w : List Nat) (i : Nat) : Nat := w.getD i 0

/-- SHA-1 message schedule: extend 16 words to 80. -/
def sha1Ws (w16 : List Nat) : List Nat :=
  (List.range 64).foldl
    (fun w i =>
      w ++ [rotl32 (wref w (i + 13) ^^^ wref w (i + 8) ^^^ wref w (i + 2) ^^^ wref w i) 1])
    w16

/-- One SHA-1 round: `st = [a, b, c, d, e]`, round index `i`, word `wi`. -/
def sha1Round (st : List Nat) (i wi : Nat) : List Nat :=
  match st with
  | [a, b, c, d, e] =>
    let f :=
      if i < 20 then b &&& c ||| (not32 b &&& d)
      else if i < 40 then b ^^^ c ^^^ d
      else if i < 60 then b &&& c ||| (b &&& d) ||| (c &&& d)
      else b ^^^ c ^^^ d
    let k :=
      if i < 20 then 1518500249
      else if i < 40 then 1859775393
      else if i < 60 then 2400959708
      else 3395469782
    let temp := (rotl32 a 5 + f + e + k + wi) % 2 ^ 32
    [temp, a, rotl32 b 30, c, d]
  | other => other

/-- Compress one 64-byte SHA-1 block into the running state. -/
def sha1Block (h : List Nat) (block : List Nat) : List Nat :=
  let ws := sha1Ws (beWords block)
  let st := (List.range 80).foldl (fun st i => sha1Round st i (wref ws i)) h
  (h.zip st).map (fun p => (p.1 + p.2) % 2 ^ 32)

/-- Fold SHA-1 over the 64-byte blocks of a padded message (`fuel` bounds the
byte count). -/
def sha1Blocks : Nat → List Nat → List Nat → List Nat
  | 0, h, _ => h
  | _ + 1, h, [] => h
  | fuel + 1, h, bytes => sha1Blocks fuel (sha1Block h (bytes.take 64)) (bytes.drop 64)

/-- `hashlib.sha1(s.encode("utf-8")).hexdigest()`. -/
def sha1Hex (s : String) : String :=
  let padded := shaPad (utf8Bytes s)
  let h := sha1Blocks padded.length
    [1732584193, 4023233417, 2562383102, 271733878, 3285377520] padded
  ⟨(h.map toHex32).flatten⟩

/-- SHA-256 round constants. -/
def k256 : List Nat :=
  [1116352408, 1899447441, 3049323471, 3921009573, 961987163, 1508970993,
   2453635748, 2870763221, 3624381080, 310598401, 607225278, 1426881987,
   1925078388, 2162078206, 2614888103, 3248222580, 3835390401, 4022224774,
   264347078, 604807628, 770255983, 1249150122, 1555081692, 1996064986,
   2554220882, 2821834349, 2952996808, 3210313671, 3336571891, 3584528711,
   113926993, 338241895, 666307205, 773529912, 1294757372, 1396182291,
   1695183700, 1986661051, 2177026350, 2456956037, 2730485921, 2820302411,
   3259730800, 3345764771, 3516065817, 3600352804, 4094571909, 275423344,
   430227734, 506948616, 659060556, 883997877, 958139571, 1322822218,
   1537002063, 1747873779, 1955562222, 2024104815, 2227730452, 2361852424,
   2428436474, 2756734187, 3204031479, 3329325298]

/-- SHA-256 message schedule: extend 16 words to 64. -/
def sha256Ws (w16 : List Nat) : List Nat :=
  (List.range 48).foldl
    (fun w i =>
      let s0 := rotr32 (wref w (i + 1)) 7 ^^^ rotr32 (wref w (i + 1)) 18 ^^^ wref w (i + 1) / 2 ^ 3
      let s1 := rotr32 (wref w (i + 14)) 17 ^^^ rotr32 (wref w (i + 14)) 19 ^^^ wref w (i + 14) / 2 ^ 10
      w ++ [(wref w i + s0 + wref w (i + 9) + s1) % 2 ^ 32])
    w16

/-- One SHA-256 round: `st = [a, b, c, d, e, f, g, h]`. -/
def sha256Round (st : List Nat) (ki wi : Nat) : List Nat :=
  match st with
  | [a, b, c, d, e, f, g, hh] =>
    let S1 := rotr32 e 6 ^^^ rotr32 e 11 ^^^ rotr32 e 25
    let ch := e &&& f ^^^ (not32 e &&& g)
    let t1 := (hh + S1 + ch + ki + wi) % 2 ^ 32
    let S0 := rotr32 a 2 ^^^ rotr32 a 13 ^^^ rotr32 a 22
    let mj := a &&& b ^^^ (a &&& c) ^^^ (b &&& c)
    let t2 := (S0 + mj) % 2 ^ 32
    [(t1 + t2) % 2 ^ 32, a, b, c, (d + t1) % 2 ^ 32, e, f, g]
  | other => other

/-- Compress one 64-byte SHA-256 block. -/
def sha256Block (h : List Nat) (block : List Nat) : List Nat :=
  let ws := sha256Ws (beWords block)
  let st := (List.range 64).foldl
    (fun st i => sha256Round st (wref k256 i) (wref ws i)) h
  (h.zip st).map (fun p => (p.1 + p.2) % 2 ^ 32)

/-- Fold SHA-256 over the 64-byte blocks of a padded message. -/
def sha256Blocks : Nat → List Nat → List Nat → List Nat
  | 0, h, _ => h
  | _ + 1, h, [] => h
  | fuel + 1, h, bytes => sha256Blocks fuel (sha256Block h (bytes.take 64)) (bytes.drop 64)

/-- `hashlib.sha256(s.encode("utf-8", "ignore")).hexdigest()`
(`sha256_text`, corpus_ingest_txt.py lines 15-16). -/
def sha256_text (s : String) : String :=
  let padded := shaPad (utf8Bytes s)
  let h := sha256Blocks padded.length
    [1779033703, 3144134277, 1013904242, 2773480762,
     1359893119, 2600822924, 528734635, 1541459225] padded
  ⟨(h.map toHex32).flatten⟩

/-- `doc_id_for(rel_path)` (corpus_ingest_txt.py lines 18-19):
SHA-1 of the relative path. -/
def doc_id_for (rel_path : String) : String := sha1Hex rel_path

/-- `hashlib.sha1(f"{doc_id}:{idx}:{s}:{e}".encode("utf-8")).hexdigest()`
(corpus_ingest_txt.py line 151 / corpus_ingest_pdf.py line 170): the chunk id
is derived from the doc id, chunk index and character offsets only, never
from the chunk's text. -/
def mkChunkId (doc_id : String) (idx s e : Nat) : String :=
  sha1Hex (doc_id ++ ":" ++ toString idx ++ ":" ++ toString s ++ ":" ++ toString e)

/-! ## The chunk store and its full-text index
(schema and triggers: corpus_db_init.py lines 35-67).

`chunks_fts` is kept in sync by three triggers: `chunks_ai` (after insert),
`chunks_ad` (after delete) and `chunks_au` (after update).  The store
operations below perform the table mutation together with the trigger's
effect, exactly as SQLite fires them row by row. -/

structure ChunkRow where
  chunk_id : String
  doc_id : String
  chunk_idx : Nat
  start_char : Nat
  end_char : Nat
  text : List Char
deriving Repr, DecidableEq

structure FtsRow where
  chunk_id : String
  doc_id : String
  text : List Char
deriving Repr, DecidableEq

structure Store where
  chunks : List ChunkRow
  fts : List FtsRow
deriving Repr, DecidableEq

/-- The `chunks_fts` row mirroring a `chunks` row. -/
def ftsOf (r : ChunkRow) : FtsRow := ⟨r.chunk_id, r.doc_id, r.text⟩

/-- `INSERT INTO chunks ...` (corpus_ingest_txt.py lines 152-155) together
with trigger `chunks_ai`: `INSERT INTO chunks_fts(chunk_id, doc_id, text)
VALUES (new.chunk_id, new.doc_id, new.text)`. -/
def insertChunk (st : Store) (r : ChunkRow) : Store :=
  ⟨st.chunks ++ [r], st.fts ++ [ftsOf r]⟩

/-- `delete_chunks_for_doc`: `DELETE FROM chunks WHERE doc_id=?`
(corpus_ingest_txt.py lines 91-92) together with trigger `chunks_ad` fired
per deleted row: `DELETE FROM chunks_fts WHERE chunk_id = old.chunk_id`. -/
def delete_chunks_for_doc (st : Store) (d : String) : Store :=
  let deleted := st.chunks.filter (fun r => r.doc_id == d)
  ⟨st.chunks.filter (fun r => !(r.doc_id == d)),
   st.fts.filter (fun f => !(deleted.any (fun r => r.chunk_id == f.chunk_id)))⟩

/-- `UPDATE chunks SET text=? WHERE chunk_id=?` together with trigger
`chunks_au`: `UPDATE chunks_fts SET text=new.text WHERE chunk_id=new.chunk_id`.
(No script issues chunk updates, but the trigger is part of the schema.) -/
def updateChunkText (st : Store) (cid : String) (t : List Char) : Store :=
  ⟨st.chunks.map (fun r => if r.chunk_id == cid then { r with text := t } else r),
   st.fts.map (fun f => if f.chunk_id == cid then { f with text := t } else f)⟩

/-- The chunk rows inserted for one document
(corpus_ingest_txt.py lines 150-155): row `idx` gets
`chunk_id = sha1(f"{doc_id}:{idx}:{s}:{e}")`. -/
def chunkRowsFor (doc_id : String) (cs : List ChunkRec) : List ChunkRow :=
  cs.enum.map (fun ic =>
    ⟨mkChunkId doc_id ic.1 ic.2.start ic.2.stop, doc_id, ic.1, ic.2.start, ic.2.stop, ic.2.text⟩)

/-- The chunk-refresh step of ingestion (corpus_ingest_txt.py lines 147-155):
delete the document's chunks, re-chunk the normalized text, insert the new
rows.  `T`/`O` are `chunk_paragraph_aware`'s parameters (the scripts pass the
defaults 2500/200). -/
def replace_doc_chunks (st : Store) (doc_id : String) (norm : List Char) (T O : Nat) : Store :=
  (chunkRowsFor doc_id (chunk_paragraph_aware norm T O)).foldl insertChunk
    (delete_chunks_for_doc st doc_id)

/-! ## The per-file ingestion step of `corpus_ingest_txt.py main`
(lines 120-157; `corpus_ingest_pdf.py` lines 139-176 has the same skip
logic).  The observable state is the `docs` table, the chunk store with its
index, and the normalized-text artifacts on disk. -/

structure DocRow where
  doc_id : String
  rel_path : String
  abs_path : String
  ext : String
  size_bytes : Nat
  mtime_ns : Nat
  norm_hash : String
  norm_path : String
deriving Repr, DecidableEq

structure IngestState where
  docs : List DocRow
  store : Store
  files : List (String × String)
deriving Repr, DecidableEq

/-- `upsert_doc` (corpus_ingest_txt.py lines 76-89):
`INSERT ... ON CONFLICT(doc_id) DO UPDATE`. -/
def upsert_doc (docs : List DocRow) (d : DocRow) : List DocRow :=
  if docs.any (fun r => r.doc_id == d.doc_id)
  then docs.map (fun r => if r.doc_id == d.doc_id then d else r)
  else docs ++ [d]

/-- Write (create or overwrite) a file. -/
def writeFileTo (files : List (String × String)) (path content : String) :
    List (String × String) :=
  if files.any (fun f => f.1 == path)
  then files.map (fun f => if f.1 == path then (path, content) else f)
  else files ++ [(path, content)]

/-- `os.path.exists`. -/
def fileExists (files : List (String × String)) (path : String) : Bool :=
  files.any (fun f => f.1 == path)

/-- `norm_path = (NORM_DIR / f"{doc_id}.txt")` (corpus_ingest_txt.py line 122). -/
def norm_path_for (doc_id : String) : String :=
  "/ai_data/ai_corpus/normalized/" ++ doc_id ++ ".txt"

/-- One iteration of the ingestion loop for a file with relative path `rel`,
stat `(size, mtime)` and raw content `raw`
(corpus_ingest_txt.py lines 120-157): look the document up by its
path-derived id; if the stored `(size_bytes, mtime_ns)` match the stat and
the normalized artifact exists, skip before any write; otherwise normalize,
write the artifact, upsert the doc row and rebuild the chunks. -/
def ingestTxtStep (st : IngestState) (rel : String) (size mtime : Nat)
    (raw : String) : IngestState :=
  let doc_id := doc_id_for rel
  let norm_path := norm_path_for doc_id
  let unchanged :=
    match st.docs.find? (fun r => r.doc_id == doc_id) with
    | some row => row.size_bytes == size && row.mtime_ns == mtime &&
        fileExists st.files norm_path
    | none => false
  if unchanged then st
  else
    let norm := normalize_text raw
    let nh := sha256_text norm
    let files := writeFileTo st.files norm_path norm
    let docs := upsert_doc st.docs
      ⟨doc_id, rel, "/ai_data/ebooks/" ++ rel, "txt", size, mtime, nh, norm_path⟩
    let store := replace_doc_chunks st.store doc_id norm.data 2500 200
    ⟨docs, store, files⟩

/-! ## `ask_corpus.py`: boilerplate filter and tiered query construction -/

/-- The apostrophe character (U+0027). -/
def apos : Char := Char.ofNat 39

/-- `BOILERPLATE` (ask_corpus.py lines 13-18). -/
def BOILERPLATE : List String :=
  ["project gutenberg",
   "start of the project gutenberg ebook",
   "transcriber" ++ (⟨[apos]⟩ : String) ++ "s note",
   "gutenberg license"]

/-- `STOPWORDS` (ask_corpus.py lines 20-27). -/
def STOPWORDS : List String :=
  ["the", "a", "an", "and", "or", "not", "to", "of", "in", "on", "for", "with",
   "by", "as", "at", "from", "is", "are", "was", "were", "be", "been", "being",
   "does", "do", "did", "that", "this", "these", "those", "it", "its", "he",
   "she", "they", "them", "his", "her", "their", "you", "your", "i", "we",
   "our", "us", "what", "how", "why", "who", "whom", "which", "when", "where",
   "volume", "volumes", "book", "books", "chapter", "chapters", "argue",
   "argues", "connect", "connection", "summarize", "summary", "doctrine",
   "relate", "relates", "relation", "within", "about"]

/-- `ANCHOR_TERMS` (ask_corpus.py lines 29-48). -/
def ANCHOR_TERMS : List String :=
  ["predestination", "predestinate", "election", "elect", "reprobate",
   "reprobation", "grace", "faith", "justification", "providence", "will",
   "free", "responsibility", "sin", "corruption", "merit", "works", "calling"]

/-- Does `n` occur at the head of the second list? -/
def leadsWith : List Char → List Char → Bool
  | [], _ => true
  | _ :: _, [] => false
  | a :: n, b :: h => a == b && leadsWith n h

/-- Python's substring test `n in h`. -/
def isSub (n : List Char) : List Char → Bool
  | [] => n.isEmpty
  | c :: t => leadsWith n (c :: t) || isSub n t

/-- Python `str.lower` (ASCII case mapping). -/
def pyLower (l : List Char) : List Char := l.map Char.toLower

/-- The regex word class `\w` = `[a-zA-Z0-9_]` (ASCII). -/
def isWordC (c : Char) : Bool := c.isAlphanum || c == '_'

/-- Split on spaces, dropping empty pieces (Python `str.split()`; at the call
site every whitespace character has already been replaced by a space). -/
def splitSpAux : List Char → List Char → List String
  | acc, [] => if acc.isEmpty then [] else [⟨acc.reverse⟩]
  | acc, c :: r =>
    if c == ' ' then
      if acc.isEmpty then splitSpAux [] r else (⟨acc.reverse⟩ : String) :: splitSpAux [] r
    else splitSpAux (c :: acc) r

/-- `tokenize_for_fts` (ask_corpus.py lines 55-61): lowercase, fold curly
quotes and dashes, replace runs of non-word characters by a space, split,
drop stopwords.  (Replacing each non-word character by one space yields the
same `split()` result as replacing each maximal run by one space.) -/
def tokenize_for_fts (text : String) : List String :=
  let t := pyLower text.data
  let t := t.map (fun c =>
    if c == '’' then apos
    else if c == '“' || c == '”' then '"'
    else if c == '—' || c == '–' then ' '
    else c)
  let t := t.map (fun c => if isWordC c then c else ' ')
  (splitSpAux [] t).filter (fun w => !(STOPWORDS.contains w))

/-- `fts_term` (ask_corpus.py lines 63-67): bare token if it fullmatches
`[a-z0-9_]+` case-insensitively, else quoted with internal quotes doubled. -/
def fts_term (tok : String) : String :=
  if !tok.data.isEmpty && tok.data.all isWordC then tok
  else ⟨'"' :: (tok.data.map (fun c => if c == '"' then ['"', '"'] else [c])).flatten ++ ['"']⟩

/-- First-occurrence deduplication (the `seen`/`out` loop of
`make_anchor_first_query`, ask_corpus.py lines 89-94). -/
def dedupKeepFirst (seen : List String) : List String → List String
  | [] => []
  | w :: r =>
    if seen.contains w then dedupKeepFirst seen r
    else w :: dedupKeepFirst (seen ++ [w]) r

/-- The sort key `lambda w: (-len(w), w)`: `a` comes no later than `b`. -/
def keyLe (a b : String) : Bool :=
  b.length < a.length || (a.length == b.length && !(b < a))

/-- Insertion into a `keyLe`-sorted list. -/
def insertByKey (x : String) : List String → List String
  | [] => [x]
  | y :: r => if keyLe x y then x :: y :: r else y :: insertByKey x r

/-- `sorted(·, key=lambda w: (-len(w), w))`. -/
def sortByKey : List String → List String
  | [] => []
  | x :: r => insertByKey x (sortByKey r)

/-- `sorted(set(words), key=lambda w: (-len(w), w))`: on distinct elements the
key order is total, so deduplicating first is equivalent. -/
def sortedSet (ws : List String) : List String := sortByKey (dedupKeepFirst [] ws)

/-- `make_or_fts_query` (ask_corpus.py lines 69-75). -/
def make_or_fts_query (question : String) (max_terms : Nat) : String :=
  let words := tokenize_for_fts question
  if words.isEmpty then ""
  else String.intercalate " OR " (((sortedSet words).take max_terms).map fts_term)

/-- The fixed baseline terms of `make_anchor_first_query`
(ask_corpus.py line 84). -/
def baselineTerms : List String :=
  ["predestination", "election", "grace", "justification", "faith"]

/-- `make_anchor_first_query` (ask_corpus.py lines 77-96): anchors occurring
in the lowercased question (in `ANCHOR_TERMS` order), then the baseline terms
not already present, deduplicated keeping first occurrences. -/
def make_anchor_first_query (question : String) : String :=
  let qlow := pyLower question.data
  let hits := ANCHOR_TERMS.filter (fun t => isSub t.data qlow)
  let hits := baselineTerms.foldl (fun hs b => if hs.contains b then hs else hs ++ [b]) hits
  String.intercalate " OR " ((dedupKeepFirst [] hits).map fts_term)

/-- `SELECT text FROM chunks WHERE chunk_id=?` over a chunk-text table. -/
def lookupChunkText (tbl : List (String × String)) (cid : String) : Option String :=
  (tbl.find? (fun p => p.1 == cid)).map (fun p => p.2)

/-- The result loop of `search_chunks` (ask_corpus.py lines 141-156), applied
to the bm25-ranked candidate list returned by the FTS query (lines 125-137,
already over-fetched and metadata-filtered by SQL): look each candidate up,
drop missing rows, drop rows whose lowercased text contains a `BOILERPLATE`
phrase, stop once `k` survivors are collected. -/
def collectHits (tbl : List (String × String)) (k : Nat) :
    List String → List String → List String
  | [], out => out
  | cid :: rest, out =>
    match lookupChunkText tbl cid with
    | none => collectHits tbl k rest out
    | some txt =>
      if BOILERPLATE.any (fun b => isSub b.data (pyLower txt.data)) then
        collectHits tbl k rest out
      else
        let out' := out ++ [cid]
        if k ≤ out'.length then out' else collectHits tbl k rest out'

/-- `search_chunks` restricted to its pure filtering core. -/
def search_chunks (tbl : List (String × String)) (ranked : List String)
    (k : Nat) : List String :=
  collectHits tbl k ranked []

/-- Outcome of the planner: the `tried` list of `(tag, query)` pairs and the
retrieved chunk ids. -/
structure PlanOutcome where
  tried : List (String × String)
  ids : List String
deriving Repr, DecidableEq

/-- The tier logic of `ask_corpus.py main` without `--fts`
(lines 259-280): anchor-first, then broad OR, then single term, stopping at
the first tier returning hits; each tier's `(tag, query)` is recorded in
`tried` (a tier whose query string is empty is recorded but not executed;
the single-term tier is only reached and recorded when tokenization leaves
words).  `search` stands for `search_chunks` with the connection, `k` and
filters fixed. -/
def planTiers (search : String → List String) (question : String) : PlanOutcome :=
  let fts_anchor := make_anchor_first_query question
  let tried := [("ANCHOR", fts_anchor)]
  let ids := if fts_anchor.isEmpty then [] else search fts_anchor
  if !ids.isEmpty then ⟨tried, ids⟩
  else
    let fts_or := make_or_fts_query question 12
    let tried := tried ++ [("OR", fts_or)]
    let ids := if fts_or.isEmpty then [] else search fts_or
    if !ids.isEmpty then ⟨tried, ids⟩
    else
      let words := tokenize_for_fts question
      if words.isEmpty then ⟨tried, []⟩
      else
        let one := fts_term ((sortedSet words).headD "")
        ⟨tried ++ [("SINGLE", one)], search one⟩

/-! ## `work_link.py`: volume parsing

The four regexes of `VOL_PATTERNS` (work_link.py lines 7-16) are implemented
as hand-rolled matchers with Python `re.search` semantics: leftmost match,
greedy repetition.  In each pattern every greedy piece is followed by a
disjoint character class, so maximal munch is exact; the only backtracking
in these patterns (`0*(\d+)` giving back a zero, and the alternation in
pattern 3) is handled explicitly where it occurs. -/

def isDigitC (c : Char) : Bool := c.isDigit

/-- Roman-numeral letter class `[ivxlcdm]`, case-insensitive. -/
def isRomanC (c : Char) : Bool := "ivxlcdm".data.contains c.toLower

/-- Numeric value of a digit string (`int(g)`; leading zeros are harmless). -/
def natOfDigits (ds : List Char) : Nat := ds.foldl (fun n c => n * 10 + (c.toNat - 48)) 0

/-- Case-insensitive literal match; returns the rest on success. -/
def matchLitCi : List Char → List Char → Option (List Char)
  | [], s => some s
  | _ :: _, [] => none
  | a :: pat, c :: s => if c.toLower == a then matchLitCi pat s else none

/-- `\s*`. -/
def skipWs (s : List Char) : List Char := s.dropWhile pySpace

/-- `\s+`. -/
def wsPlus : List Char → Option (List Char)
  | [] => none
  | c :: r => if pySpace c then some (r.dropWhile pySpace) else none

/-- `\.?`. -/
def optDot : List Char → List Char
  | '.' :: r => r
  | s => s

/-- A word boundary after a word character: end of input or a non-word
character next. -/
def boundaryAfter : List Char → Bool
  | [] => true
  | c :: _ => !isWordC c

/-- Match `\(\s*vol\.?\s*(\d+)\s*of\s*(\d+)\s*\)` at the head of `s`. -/
def matchP1At (s : List Char) : Option (Nat × Nat) :=
  match s with
  | '(' :: r =>
    match matchLitCi "vol".data (skipWs r) with
    | none => none
    | some r =>
      let r := skipWs (optDot r)
      let d1 := r.takeWhile isDigitC
      if d1.isEmpty then none
      else
        match matchLitCi "of".data (skipWs (r.drop d1.length)) with
        | none => none
        | some r =>
          let r := skipWs r
          let d2 := r.takeWhile isDigitC
          if d2.isEmpty then none
          else
            match skipWs (r.drop d2.length) with
            | ')' :: _ => some (natOfDigits d1, natOfDigits d2)
            | _ => none
  | _ => none

/-- Match `\bvol\.?\s*0*(\d+)\b` at the head of `s`; `prevWord` says whether
the previous character is a word character (the `\b` then fails).  The group
excludes leading zeros (or keeps a single final zero when the run is all
zeros); its numeric value equals that of the whole digit run. -/
def matchP2At (prevWord : Bool) (s : List Char) : Option Nat :=
  if prevWord then none
  else
    match matchLitCi "vol".data s with
    | none => none
    | some r =>
      let r := skipWs (optDot r)
      let run := r.takeWhile isDigitC
      if run.isEmpty then none
      else if boundaryAfter (r.drop run.length) then some (natOfDigits run)
      else none

/-- Match `\bvolume\s+([ivxlcdm]+|\d+)\b` at the head of `s`, returning the
group.  The branch `[ivxlcdm]+` is preferred; since every shorter split ends
between two word characters, the trailing `\b` forces the maximal run. -/
def matchP3At (prevWord : Bool) (s : List Char) : Option (List Char) :=
  if prevWord then none
  else
    match matchLitCi "volume".data s with
    | none => none
    | some r =>
      match wsPlus r with
      | none => none
      | some r =>
        let rom := r.takeWhile isRomanC
        if !rom.isEmpty then
          if boundaryAfter (r.drop rom.length) then some rom else none
        else
          let ds := r.takeWhile isDigitC
          if !ds.isEmpty && boundaryAfter (r.drop ds.length) then some ds else none

/-- Match `\bvol\.?\s*([ivxlcdm]+)\s*of\s*([ivxlcdm]+)\b` at the head of `s`. -/
def matchP4At (prevWord : Bool) (s : List Char) : Option (List Char × List Char) :=
  if prevWord then none
  else
    match matchLitCi "vol".data s with
    | none => none
    | some r =>
      let r := skipWs (optDot r)
      let r1 := r.takeWhile isRomanC
      if r1.isEmpty then none
      else
        match matchLitCi "of".data (skipWs (r.drop r1.length)) with
        | none => none
        | some r =>
          let r := skipWs r
          let r2 := r.takeWhile isRomanC
          if r2.isEmpty then none
          else if boundaryAfter (r.drop r2.length) then some (r1, r2)
          else none

/-- Leftmost search for pattern 1. -/
def searchP1 : List Char → Option (Nat × Nat)
  | [] => none
  | c :: r =>
    match matchP1At (c :: r) with
    | some g => some g
    | none => searchP1 r

/-- Leftmost search for pattern 2, tracking the previous character's
word-ness for `\b`. -/
def searchP2Go (prevWord : Bool) : List Char → Option Nat
  | [] => none
  | c :: r =>
    match matchP2At prevWord (c :: r) with
    | some g => some g
    | none => searchP2Go (isWordC c) r

def searchP2 (s : List Char) : Option Nat := searchP2Go false s

/-- Leftmost search for pattern 3. -/
def searchP3Go (prevWord : Bool) : List Char → Option (List Char)
  | [] => none
  | c :: r =>
    match matchP3At prevWord (c :: r) with
    | some g => some g
    | none => searchP3Go (isWordC c) r

def searchP3 (s : List Char) : Option (List Char) := searchP3Go false s

/-- Leftmost search for pattern 4. -/
def searchP4Go (prevWord : Bool) : List Char → Option (List Char × List Char)
  | [] => none
  | c :: r =>
    match matchP4At prevWord (c :: r) with
    | some g => some g
    | none => searchP4Go (isWordC c) r

def searchP4 (s : List Char) : Option (List Char × List Char) := searchP4Go false s

/-- The `ROMAN` table (work_link.py lines 18-19). -/
def ROMAN : List (String × Nat) :=
  [("I", 1), ("II", 2), ("III", 3), ("IV", 4), ("V", 5), ("VI", 6), ("VII", 7),
   ("VIII", 8), ("IX", 9), ("X", 10), ("XI", 11), ("XII", 12), ("XIII", 13),
   ("XIV", 14), ("XV", 15), ("XVI", 16), ("XVII", 17), ("XVIII", 18),
   ("XIX", 19), ("XX", 20)]

/-- `roman_to_int` (work_link.py lines 21-23); the `strip()` is a no-op on
regex groups drawn from `[ivxlcdm]+`. -/
def roman_to_int (g : List Char) : Option Nat :=
  (ROMAN.find? (fun p => p.1 == (⟨g.map Char.toUpper⟩ : String))).map (fun p => p.2)

/-- `parse_volume` (work_link.py lines 43-70): try the four patterns in
order; the first one that matches anywhere decides the result. -/
def parse_volume (fn : String) : Option Nat × Option Nat :=
  match searchP1 fn.data with
  | some (n, m) => (some n, some m)
  | none =>
    match searchP2 fn.data with
    | some n => (some n, none)
    | none =>
      match searchP3 fn.data with
      | some g =>
        if g.all isDigitC then (some (natOfDigits g), none)
        else
          match roman_to_int g with
          | some r => (some r, none)
          | none => (none, none)
      | none =>
        match searchP4 fn.data with
        | some (a, b) =>
          match roman_to_int a, roman_to_int b with
          | some ra, some rb => (some ra, some rb)
          | _, _ => (none, none)
        | none => (none, none)

/-! ## Invariant predicates used to state the normalizer's contract -/

/-- The head, if any, is not horizontal whitespace. -/
def headNotHws : List Char → Bool
  | [] => true
  | c :: _ => !hws c

/-- Every horizontal-whitespace character is a plain space (in particular
there is no carriage return, tab, etc.). -/
def wsCanon (l : List Char) : Bool := l.all (fun c => !hws c || c == ' ')

/-- No two adjacent horizontal-whitespace characters (runs were collapsed). -/
def noAdjHws : List Char → Bool
  | a :: b :: rest => !(hws a && hws b) && noAdjHws (b :: rest)
  | _ => true

/-- Worker: no run of more than 3 newlines, with `n` newlines pending. -/
def noQuadNlAux : Nat → List Char → Bool
  | n, [] => decide (n ≤ 3)
  | n, c :: r =>
    if c == '\n' then noQuadNlAux (n + 1) r
    else decide (n ≤ 3) && noQuadNlAux 0 r

/-- No run of 4 or more consecutive newlines. -/
def noQuadNl (l : List Char) : Bool := noQuadNlAux 0 l

/-- The head, if any, is not whitespace. -/
def headNoWs : List Char → Bool
  | [] => true
  | c :: _ => !pySpace c

/-- Neither end is whitespace: the string equals its own `strip()`. -/
def strippedB (l : List Char) : Bool := headNoWs l && headNoWs l.reverse

/-- The last character, if any, is not a newline. -/
def lastNotNl : List Char → Bool
  | [] => true
  | [c] => !(c == '\n')
  | _ :: c :: r => lastNotNl (c :: r)

/-! ## Join helpers used to state the chunk-coverage property -/

/-- Join paragraphs with one separator between each consecutive pair. -/
def joinSeps : List (List Char) → List (List Char) → List Char
  | [], _ => []
  | [p], _ => p
  | p :: q :: ps, s :: ss => p ++ s ++ joinSeps (q :: ps) ss
  | p :: q :: ps, [] => p ++ joinSeps (q :: ps) []

/-- Join paragraphs with the blank-line separator `"\n\n"` throughout. -/
def interNl2 : List (List Char) → List Char
  | [] => []
  | [p] => p
  | p :: q :: ps => p ++ nl2 ++ interNl2 (q :: ps)


/-- Invariant of the chunker's paragraph fold, relating the state after
processing the (stripped, non-empty) paragraphs `ps` to their join: the
emitted non-overlap text plus the buffer's non-overlap part equals `ps`
joined with separators each of which is the blank line or empty. -/
def ChunkInv (ps : List (List Char)) (st : ChunkSt) : Prop :=
  ∃ ss : List (List Char),
    (∀ s ∈ ss, s = nl2 ∨ s = []) ∧
    (ps.length = ss.length + 1 ∨ (ps = [] ∧ ss = [])) ∧
    concatNonOv st.chunks ++ st.buf.drop st.bufOv = joinSeps ps ss ∧
    (st.buf = [] ↔ ps = []) ∧
    (st.buf = [] → st.chunks = [] ∧ st.bufOv = 0) ∧
    st.bufOv ≤ st.buf.length ∧
    (∀ c, st.buf.getLast? = some c → pySpace c = false)

/-! # Theorems

## Normalizer lemmas -/

theorem wsCanon_nil : wsCanon [] = true := rfl

theorem wsCanon_cons (c : Char) (l : List Char) :
    wsCanon (c :: l) = ((!hws c || c == ' ') && wsCanon l) := by
  simp [wsCanon]

theorem wsCanon_append (a b : List Char) :
    wsCanon (a ++ b) = (wsCanon a && wsCanon b) := by
  simp [wsCanon, List.all_append]

theorem wsCanon_collapseAux : ∀ (l : List Char) (b : Bool),
    wsCanon (collapseWsAux b l) = true := by
  intro l
  induction l with
  | nil => intro b; rfl
  | cons c r ih =>
    intro b
    by_cases hc : hws c = true
    · cases b with
      | true => simpa [collapseWsAux, hc] using ih true
      | false =>
        simp only [collapseWsAux, hc, if_true]
        simp only [Bool.false_eq_true, if_false]
        rw [wsCanon_cons]
        simp [ih true]
    · have hc' : hws c = false := by simpa using hc
      simp only [collapseWsAux, hc', Bool.false_eq_true, if_false]
      rw [wsCanon_cons]
      simp [hc', ih false]

theorem headNotHws_collapseAux_true : ∀ l : List Char,
    headNotHws (collapseWsAux true l) = true := by
  intro l
  induction l with
  | nil => rfl
  | cons c r ih =>
    by_cases hc : hws c = true
    · simpa [collapseWsAux, hc] using ih
    · have hc' : hws c = false := by simpa using hc
      simp [collapseWsAux, hc', headNotHws]

theorem noAdjHws_cons (c : Char) (l : List Char) :
    noAdjHws (c :: l) = ((!hws c || headNotHws l) && noAdjHws l) := by
  cases l with
  | nil => simp [noAdjHws, headNotHws]
  | cons d t => simp [noAdjHws, headNotHws, Bool.not_and]

theorem noAdjHws_collapseAux : ∀ (l : List Char) (b : Bool),
    noAdjHws (collapseWsAux b l) = true := by
  intro l
  induction l with
  | nil => intro b; rfl
  | cons c r ih =>
    intro b
    by_cases hc : hws c = true
    · cases b with
      | true => simpa [collapseWsAux, hc] using ih true
      | false =>
        simp only [collapseWsAux, hc, if_true, Bool.false_eq_true, if_false]
        rw [noAdjHws_cons]
        simp [headNotHws_collapseAux_true, ih true]
    · have hc' : hws c = false := by simpa using hc
      simp only [collapseWsAux, hc', Bool.false_eq_true, if_false]
      rw [noAdjHws_cons]
      simp [hc', ih false]

theorem collapseAux_id : ∀ l : List Char, wsCanon l = true → noAdjHws l = true →
    collapseWsAux false l = l ∧ (headNotHws l = true → collapseWsAux true l = l) := by
  intro l
  induction l with
  | nil => intro _ _; exact ⟨rfl, fun _ => rfl⟩
  | cons c r ih =>
    intro hw hadj
    rw [wsCanon_cons] at hw
    rw [noAdjHws_cons] at hadj
    simp only [Bool.and_eq_true] at hw hadj
    obtain ⟨hw1, hwr⟩ := hw
    obtain ⟨hadj1, hadjr⟩ := hadj
    have ihr := ih hwr hadjr
    by_cases hc : hws c = true
    · have hcs : c = ' ' := by
        rcases Bool.or_eq_true_iff.mp hw1 with h | h
        · rw [hc] at h; simp at h
        · exact beq_iff_eq.mp h
      have hhr : headNotHws r = true := by
        rcases Bool.or_eq_true_iff.mp hadj1 with h | h
        · rw [hc] at h; simp at h
        · exact h
      constructor
      · simp only [collapseWsAux, hc, if_true, Bool.false_eq_true, if_false]
        rw [ihr.2 hhr, hcs]
      · intro hh
        rw [show headNotHws (c :: r) = !hws c from rfl, hc] at hh
        simp at hh
    · have hc' : hws c = false := by simpa using hc
      refine ⟨?_, fun _ => ?_⟩ <;>
        · simp only [collapseWsAux, hc', Bool.false_eq_true, if_false]
          rw [ihr.1]

theorem noQuadNlAux_le : ∀ (l : List Char) (n : Nat),
    noQuadNlAux n l = true → n ≤ 3 := by
  intro l
  induction l with
  | nil => intro n h; simpa [noQuadNlAux] using h
  | cons c r ih =>
    intro n h
    by_cases hc : c == '\n'
    · have := ih (n + 1) (by simpa [noQuadNlAux, hc] using h)
      omega
    · simp only [noQuadNlAux, hc, Bool.false_eq_true, if_false,
        Bool.and_eq_true, decide_eq_true_eq] at h
      exact h.1

theorem noQuadNlAux_mono : ∀ (l : List Char) (m n : Nat), m ≤ n →
    noQuadNlAux n l = true → noQuadNlAux m l = true := by
  intro l
  induction l with
  | nil =>
    intro m n hmn h
    simp only [noQuadNlAux, decide_eq_true_eq] at h ⊢
    omega
  | cons c r ih =>
    intro m n hmn h
    by_cases hc : c == '\n'
    · simp only [noQuadNlAux, hc, if_true] at h ⊢
      exact ih (m + 1) (n + 1) (by omega) h
    · simp only [noQuadNlAux, hc, Bool.false_eq_true, if_false,
        Bool.and_eq_true, decide_eq_true_eq] at h ⊢
      exact ⟨by omega, h.2⟩

theorem noQuadNlAux_replicate : ∀ (m k : Nat) (l : List Char),
    noQuadNlAux k (List.replicate m '\n' ++ l) = noQuadNlAux (k + m) l := by
  intro m
  induction m with
  | zero => intro k l; simp
  | succ m ih =>
    intro k l
    rw [List.replicate_succ]
    simp only [List.cons_append, noQuadNlAux, beq_self_eq_true, if_true, List.append_eq]
    rw [ih (k + 1) l]
    congr 1
    omega

theorem noQuad_capNlAux : ∀ (l : List Char) (n : Nat),
    noQuadNlAux 0 (capNlAux n l) = true := by
  intro l
  induction l with
  | nil =>
    intro n
    simp only [capNlAux]
    rw [show (List.replicate (min n 3) '\n' : List Char) =
      List.replicate (min n 3) '\n' ++ [] from (List.append_nil _).symm]
    rw [noQuadNlAux_replicate]
    simp only [noQuadNlAux, decide_eq_true_eq]
    omega
  | cons c r ih =>
    intro n
    by_cases hc : c == '\n'
    · simpa [capNlAux, hc] using ih (n + 1)
    · simp only [capNlAux, hc, Bool.false_eq_true, if_false]
      rw [noQuadNlAux_replicate]
      simp only [noQuadNlAux, hc, Bool.false_eq_true, if_false,
        Bool.and_eq_true, decide_eq_true_eq]
      exact ⟨by omega, ih 0⟩

theorem capNlAux_id : ∀ (l : List Char) (n : Nat), noQuadNlAux n l = true →
    capNlAux n l = List.replicate n '\n' ++ l := by
  intro l
  induction l with
  | nil =>
    intro n h
    simp only [noQuadNlAux, decide_eq_true_eq] at h
    simp [capNlAux, Nat.min_eq_left h]
  | cons c r ih =>
    intro n h
    by_cases hc : c == '\n'
    · have hc' : c = '\n' := beq_iff_eq.mp hc
      simp only [capNlAux, hc, if_true]
      rw [ih (n + 1) (by simpa [noQuadNlAux, hc] using h), hc']
      rw [List.replicate_succ' n '\n']
      simp
    · simp only [noQuadNlAux, hc, Bool.false_eq_true, if_false,
        Bool.and_eq_true, decide_eq_true_eq] at h
      simp only [capNlAux, hc, Bool.false_eq_true, if_false]
      rw [ih 0 h.2, Nat.min_eq_left h.1]
      simp

theorem wsCanon_replicate_nl (m : Nat) : wsCanon (List.replicate m '\n') = true := by
  induction m with
  | zero => rfl
  | succ m ih =>
    rw [List.replicate_succ, wsCanon_cons]
    simp [hws, ih]

theorem wsCanon_capNlAux : ∀ (l : List Char) (n : Nat), wsCanon l = true →
    wsCanon (capNlAux n l) = true := by
  intro l
  induction l with
  | nil => intro n _; exact wsCanon_replicate_nl _
  | cons c r ih =>
    intro n h
    rw [wsCanon_cons] at h
    simp only [Bool.and_eq_true] at h
    by_cases hc : c == '\n'
    · simpa [capNlAux, hc] using ih (n + 1) h.2
    · simp only [capNlAux, hc, Bool.false_eq_true, if_false]
      rw [wsCanon_append, wsCanon_replicate_nl, wsCanon_cons]
      simp only [Bool.true_and, Bool.and_eq_true]
      exact ⟨h.1, ih 0 h.2⟩

theorem headNotHws_capNlAux : ∀ (l : List Char) (n : Nat),
    (n = 0 → headNotHws l = true) → headNotHws (capNlAux n l) = true := by
  intro l
  induction l with
  | nil =>
    intro n _
    simp only [capNlAux]
    match h : min n 3 with
    | 0 => simp [headNotHws]
    | m + 1 => simp [List.replicate_succ, headNotHws, hws]
  | cons c r ih =>
    intro n h
    by_cases hc : c == '\n'
    · simp only [capNlAux, hc, if_true]
      exact ih (n + 1) (by omega)
    · simp only [capNlAux, hc, Bool.false_eq_true, if_false]
      match hm : min n 3 with
      | 0 =>
        simp only [List.replicate, List.nil_append]
        have hn : n = 0 := by omega
        simpa [headNotHws] using h hn
      | m + 1 => simp [List.replicate_succ, headNotHws, hws]

theorem noAdjHws_replicate_nl_append (m : Nat) (l : List Char) :
    noAdjHws (List.replicate m '\n' ++ l) = noAdjHws l := by
  induction m with
  | zero => simp
  | succ m ih =>
    rw [List.replicate_succ, List.cons_append, noAdjHws_cons]
    simp [hws, ih]

theorem noAdjHws_capNlAux : ∀ (l : List Char) (n : Nat), noAdjHws l = true →
    noAdjHws (capNlAux n l) = true := by
  intro l
  induction l with
  | nil =>
    intro n _
    rw [show capNlAux n [] = List.replicate (min n 3) '\n' ++ [] by
      simp [capNlAux]]
    rw [noAdjHws_replicate_nl_append]
    rfl
  | cons c r ih =>
    intro n h
    rw [noAdjHws_cons] at h
    simp only [Bool.and_eq_true] at h
    by_cases hc : c == '\n'
    · simpa [capNlAux, hc] using ih (n + 1) h.2
    · simp only [capNlAux, hc, Bool.false_eq_true, if_false]
      rw [noAdjHws_replicate_nl_append, noAdjHws_cons]
      simp only [Bool.and_eq_true]
      refine ⟨?_, ih 0 h.2⟩
      rcases Bool.or_eq_true_iff.mp h.1 with hcw | hhr
      · simp [hcw]
      · have : headNotHws (capNlAux 0 r) = true :=
          headNotHws_capNlAux r 0 (fun _ => hhr)
        simp [this]

theorem headNoWs_dropWhile (l : List Char) :
    headNoWs (l.dropWhile pySpace) = true := by
  induction l with
  | nil => rfl
  | cons c r ih =>
    by_cases hc : pySpace c = true
    · simpa [List.dropWhile_cons, hc] using ih
    · have hc' : pySpace c = false := by simpa using hc
      simp [List.dropWhile_cons, hc', headNoWs]

theorem headNoWsOfLeads (x y : List Char) (h : x <+: y)
    (hy : headNoWs y = true) : headNoWs x = true := by
  cases x with
  | nil => rfl
  | cons c r =>
    obtain ⟨t, ht⟩ := h
    rw [← ht] at hy
    simpa [headNoWs] using hy

theorem pyRStripLeads (l : List Char) : pyRStrip l <+: l := by
  have h : l.reverse.dropWhile pySpace <:+ l.reverse := List.dropWhile_suffix pySpace
  have h2 : (l.reverse.dropWhile pySpace).reverse <+: l.reverse.reverse :=
    List.reverse_prefix.mpr h
  simpa [pyRStrip] using h2

theorem headNoWs_pyRStrip (l : List Char) (h : headNoWs l = true) :
    headNoWs (pyRStrip l) = true :=
  headNoWsOfLeads _ _ (pyRStripLeads l) h

theorem strippedB_pyStrip (l : List Char) : strippedB (pyStrip l) = true := by
  have h1 : headNoWs (pyStrip l) = true :=
    headNoWs_pyRStrip _ (headNoWs_dropWhile l)
  have h2 : headNoWs (pyStrip l).reverse = true := by
    show headNoWs (pyRStrip (pyLStrip l)).reverse = true
    rw [pyRStrip, List.reverse_reverse]
    exact headNoWs_dropWhile _
  simp [strippedB, h1, h2]

theorem pyLStrip_id (l : List Char) (h : headNoWs l = true) : pyLStrip l = l := by
  cases l with
  | nil => rfl
  | cons c r =>
    simp only [headNoWs] at h
    simp only [pyLStrip, List.dropWhile_cons]
    rw [show pySpace c = false by simpa using h]
    simp

theorem pyRStrip_id (l : List Char) (h : headNoWs l.reverse = true) :
    pyRStrip l = l := by
  rw [pyRStrip, show List.dropWhile pySpace l.reverse = pyLStrip l.reverse from rfl,
    pyLStrip_id l.reverse h, List.reverse_reverse]

theorem pyStrip_id (l : List Char) (h : strippedB l = true) : pyStrip l = l := by
  simp only [strippedB, Bool.and_eq_true] at h
  rw [pyStrip, pyLStrip_id l h.1, pyRStrip_id l h.2]

theorem pyStrip_append_nl (t : List Char) (h : strippedB t = true) :
    pyStrip (t ++ ['\n']) = t := by
  simp only [strippedB, Bool.and_eq_true] at h
  cases t with
  | nil => rfl
  | cons c r =>
    have hL : pyLStrip ((c :: r) ++ ['\n']) = (c :: r) ++ ['\n'] := by
      simp only [pyLStrip, List.cons_append, List.dropWhile_cons]
      rw [show pySpace c = false by simpa [headNoWs] using h.1]
      simp
    rw [pyStrip, hL]
    show pyRStrip ((c :: r) ++ ['\n']) = c :: r
    rw [pyRStrip, List.reverse_append,
      show (['\n'] : List Char).reverse = ['\n'] from rfl,
      List.singleton_append,
      show List.dropWhile pySpace ('\n' :: (c :: r).reverse) =
        List.dropWhile pySpace (c :: r).reverse by
          simp only [List.dropWhile_cons]
          rw [show pySpace '\n' = true by decide]
          simp]
    exact pyRStrip_id (c :: r) h.2

theorem noAdjHws_append_right : ∀ a b : List Char,
    noAdjHws (a ++ b) = true → noAdjHws b = true := by
  intro a
  induction a with
  | nil => intro b h; exact h
  | cons c r ih =>
    intro b h
    rw [List.cons_append, noAdjHws_cons] at h
    simp only [Bool.and_eq_true] at h
    exact ih b h.2

theorem headNotHws_append (a b : List Char) (ha : a ≠ []) :
    headNotHws (a ++ b) = headNotHws a := by
  cases a with
  | nil => exact absurd rfl ha
  | cons c r => rfl

theorem noAdjHws_append_left : ∀ a b : List Char,
    noAdjHws (a ++ b) = true → noAdjHws a = true := by
  intro a
  induction a with
  | nil => intro b _; rfl
  | cons c r ih =>
    intro b h
    rw [List.cons_append, noAdjHws_cons] at h
    simp only [Bool.and_eq_true] at h
    rw [noAdjHws_cons]
    simp only [Bool.and_eq_true]
    refine ⟨?_, ih b h.2⟩
    rcases Bool.or_eq_true_iff.mp h.1 with hc | hh
    · simp [hc]
    · cases r with
      | nil => simp [headNotHws]
      | cons d t =>
        rw [headNotHws_append (d :: t) b (by simp)] at hh
        simp [hh]

theorem noQuadNlAux_append_right : ∀ (a b : List Char) (n : Nat),
    noQuadNlAux n (a ++ b) = true → noQuadNlAux 0 b = true := by
  intro a
  induction a with
  | nil =>
    intro b n h
    exact noQuadNlAux_mono b 0 n (Nat.zero_le n) h
  | cons c r ih =>
    intro b n h
    by_cases hc : c == '\n'
    · exact ih b (n + 1) (by simpa [noQuadNlAux, hc] using h)
    · simp only [List.cons_append, noQuadNlAux, hc, Bool.false_eq_true, if_false,
        Bool.and_eq_true] at h
      exact ih b 0 h.2

theorem noQuadNlAux_append_left : ∀ (a b : List Char) (n : Nat),
    noQuadNlAux n (a ++ b) = true → noQuadNlAux n a = true := by
  intro a
  induction a with
  | nil =>
    intro b n h
    have := noQuadNlAux_le (([] : List Char) ++ b) n h
    simp only [noQuadNlAux, decide_eq_true_eq]
    exact this
  | cons c r ih =>
    intro b n h
    by_cases hc : c == '\n'
    · simp only [noQuadNlAux, hc, if_true]
      exact ih b (n + 1) (by simpa [noQuadNlAux, hc] using h)
    · simp only [List.cons_append, noQuadNlAux, hc, Bool.false_eq_true, if_false,
        Bool.and_eq_true] at h
      simp only [noQuadNlAux, hc, Bool.false_eq_true, if_false, Bool.and_eq_true]
      exact ⟨h.1, ih b 0 h.2⟩

theorem wsCanon_pyStrip (l : List Char) (h : wsCanon l = true) :
    wsCanon (pyStrip l) = true := by
  have hL : wsCanon (pyLStrip l) = true := by
    have h' : wsCanon (l.takeWhile pySpace ++ pyLStrip l) = true := by
      rw [show l.takeWhile pySpace ++ pyLStrip l = l from
        List.takeWhile_append_dropWhile pySpace l]
      exact h
    rw [wsCanon_append] at h'
    simp only [Bool.and_eq_true] at h'
    exact h'.2
  obtain ⟨t, ht⟩ := pyRStripLeads (pyLStrip l)
  have h' : wsCanon (pyStrip l ++ t) = true := by
    rw [show pyStrip l = pyRStrip (pyLStrip l) from rfl, ht]
    exact hL
  rw [wsCanon_append] at h'
  simp only [Bool.and_eq_true] at h'
  exact h'.1

theorem noAdjHws_pyStrip (l : List Char) (h : noAdjHws l = true) :
    noAdjHws (pyStrip l) = true := by
  have hL : noAdjHws (pyLStrip l) = true := by
    refine noAdjHws_append_right (l.takeWhile pySpace) _ ?_
    rw [show l.takeWhile pySpace ++ pyLStrip l = l from
      List.takeWhile_append_dropWhile pySpace l]
    exact h
  obtain ⟨t, ht⟩ := pyRStripLeads (pyLStrip l)
  rw [show pyStrip l = pyRStrip (pyLStrip l) from rfl]
  refine noAdjHws_append_left _ t ?_
  rw [ht]; exact hL

theorem noQuadNl_pyStrip (l : List Char) (h : noQuadNl l = true) :
    noQuadNl (pyStrip l) = true := by
  have hL : noQuadNlAux 0 (pyLStrip l) = true := by
    refine noQuadNlAux_append_right (l.takeWhile pySpace) _ 0 ?_
    rw [show l.takeWhile pySpace ++ pyLStrip l = l from
      List.takeWhile_append_dropWhile pySpace l]
    exact h
  obtain ⟨t, ht⟩ := pyRStripLeads (pyLStrip l)
  rw [show pyStrip l = pyRStrip (pyLStrip l) from rfl]
  refine noQuadNlAux_append_left _ t 0 ?_
  rw [ht]; exact hL

theorem crlfToLf_cons_ne (c : Char) (r : List Char) (hc : c ≠ '\u000D') :
    crlfToLf (c :: r) = c :: crlfToLf r := by
  rw [crlfToLf.eq_def]
  split <;> simp_all

theorem crlfToLf_id : ∀ l : List Char, '\u000D' ∉ l → crlfToLf l = l := by
  intro l
  induction l with
  | nil => intro _; rfl
  | cons c r ih =>
    intro h
    have hc : c ≠ '\u000D' := fun e => h (e ▸ List.mem_cons_self c r)
    have hr : '\u000D' ∉ r := fun e => h (List.mem_cons_of_mem c e)
    rw [crlfToLf_cons_ne c r hc, ih hr]

theorem not_cr_of_wsCanon (l : List Char) (h : wsCanon l = true) :
    '\u000D' ∉ l := by
  intro hm
  have h2 := List.all_eq_true.mp h _ hm
  exact absurd h2 (by decide)

theorem lastNotNl_of_headNoWs_reverse : ∀ t : List Char,
    headNoWs t.reverse = true → lastNotNl t = true := by
  intro t
  induction t with
  | nil => intro _; rfl
  | cons c r ih =>
    intro h
    cases r with
    | nil =>
      simp only [headNoWs, List.reverse_cons, List.reverse_nil,
        List.nil_append] at h
      simp only [lastNotNl]
      by_cases hc : c == '\n'
      · rw [beq_iff_eq.mp hc] at h
        exact absurd h (by decide)
      · simp [hc]
    | cons d t' =>
      have hne : (d :: t').reverse ≠ [] := by simp
      rw [List.reverse_cons] at h
      rw [show lastNotNl (c :: d :: t') = lastNotNl (d :: t') from rfl]
      refine ih ?_
      cases hrev : (d :: t').reverse with
      | nil => exact absurd hrev hne
      | cons x xs =>
        rw [hrev] at h
        rw [List.cons_append] at h
        simpa [headNoWs] using h

theorem noQuadNlAux_append_last_nl : ∀ (t : List Char) (n : Nat),
    noQuadNlAux n t = true → (t = [] → n ≤ 2) → lastNotNl t = true →
    noQuadNlAux n (t ++ ['\n']) = true := by
  intro t
  induction t with
  | nil =>
    intro n _ h2 _
    have := h2 rfl
    simp only [List.nil_append, noQuadNlAux, beq_self_eq_true, if_true,
      decide_eq_true_eq]
    omega
  | cons c r ih =>
    intro n h1 _ h3
    by_cases hc : c == '\n'
    · have hr : r ≠ [] := by
        intro e
        rw [e] at h3
        simp only [lastNotNl] at h3
        rw [hc] at h3
        simp at h3
      have h3r : lastNotNl r = true := by
        cases r with
        | nil => exact absurd rfl hr
        | cons d t' => exact h3
      rw [List.cons_append]
      simp only [noQuadNlAux, hc, if_true] at h1 ⊢
      exact ih (n + 1) h1 (fun e => absurd e hr) h3r
    · have h3r : lastNotNl r = true := by
        cases r with
        | nil => rfl
        | cons d t' => exact h3
      rw [List.cons_append]
      simp only [noQuadNlAux, hc, Bool.false_eq_true, if_false,
        Bool.and_eq_true] at h1 ⊢
      refine ⟨h1.1, ?_⟩
      exact ih 0 h1.2 (by omega) h3r

theorem noAdjHws_append_single (t : List Char) (x : Char) (hx : hws x = false)
    (h : noAdjHws t = true) : noAdjHws (t ++ [x]) = true := by
  induction t with
  | nil => simp [noAdjHws]
  | cons c r ih =>
    rw [noAdjHws_cons] at h
    simp only [Bool.and_eq_true] at h
    rw [List.cons_append, noAdjHws_cons]
    simp only [Bool.and_eq_true]
    refine ⟨?_, ih h.2⟩
    rcases Bool.or_eq_true_iff.mp h.1 with hc | hh
    · simp [hc]
    · cases r with
      | nil => simp [headNotHws, hx]
      | cons d t' =>
        rw [headNotHws_append (d :: t') [x] (by simp)]
        simp [hh]

theorem normCore_props (l : List Char) :
    wsCanon (pyStrip (capNl (collapseWs (crlfToLf l)))) = true ∧
    noAdjHws (pyStrip (capNl (collapseWs (crlfToLf l)))) = true ∧
    noQuadNl (pyStrip (capNl (collapseWs (crlfToLf l)))) = true ∧
    strippedB (pyStrip (capNl (collapseWs (crlfToLf l)))) = true := by
  have hw : wsCanon (collapseWs (crlfToLf l)) = true := wsCanon_collapseAux _ false
  have ha : noAdjHws (collapseWs (crlfToLf l)) = true := noAdjHws_collapseAux _ false
  have hwz : wsCanon (capNl (collapseWs (crlfToLf l))) = true := wsCanon_capNlAux _ 0 hw
  have haz : noAdjHws (capNl (collapseWs (crlfToLf l))) = true := noAdjHws_capNlAux _ 0 ha
  have hqz : noQuadNl (capNl (collapseWs (crlfToLf l))) = true := noQuad_capNlAux _ 0
  exact ⟨wsCanon_pyStrip _ hwz, noAdjHws_pyStrip _ haz, noQuadNl_pyStrip _ hqz,
    strippedB_pyStrip _⟩

theorem normalizeL_props (l : List Char) :
    wsCanon (normalizeL l) = true ∧ noAdjHws (normalizeL l) = true ∧
    noQuadNl (normalizeL l) = true := by
  obtain ⟨hw, ha, hq, hs⟩ := normCore_props l
  simp only [strippedB, Bool.and_eq_true] at hs
  refine ⟨?_, ?_, ?_⟩
  · rw [normalizeL, wsCanon_append]
    simp only [Bool.and_eq_true]
    exact ⟨hw, by decide⟩
  · exact noAdjHws_append_single _ '\n' (by decide) ha
  · exact noQuadNlAux_append_last_nl _ 0 hq (fun _ => by omega)
      (lastNotNl_of_headNoWs_reverse _ hs.2)

theorem normalizeL_idem (l : List Char) :
    normalizeL (normalizeL l) = normalizeL l := by
  obtain ⟨hw, ha, hq⟩ := normalizeL_props l
  obtain ⟨_, _, _, hs⟩ := normCore_props l
  have h1 : crlfToLf (normalizeL l) = normalizeL l :=
    crlfToLf_id _ (not_cr_of_wsCanon _ hw)
  have h2 : collapseWs (normalizeL l) = normalizeL l :=
    (collapseAux_id _ hw ha).1
  have h3 : capNl (normalizeL l) = normalizeL l := by
    have := capNlAux_id (normalizeL l) 0 hq
    simpa using this
  have h4 : pyStrip (normalizeL l) =
      pyStrip (capNl (collapseWs (crlfToLf l))) := by
    rw [show normalizeL l =
      pyStrip (capNl (collapseWs (crlfToLf l))) ++ ['\n'] from rfl]
    exact pyStrip_append_nl _ hs
  show pyStrip (capNl (collapseWs (crlfToLf (normalizeL l)))) ++ ['\n'] = normalizeL l
  rw [h1, h2, h3, h4]
  rfl

/-- C7: `normalize_text` maps `"A\r\n\r\n\r\n\r\nB"` to `"A\n\n\nB\n"`; and for
every input, the output contains no carriage return, every horizontal
whitespace character in it is a plain space with no two adjacent (runs are
collapsed), no run of 4 or more newlines survives (capped to 3), and the
output is a whitespace-stripped body followed by exactly one trailing
newline. -/
theorem C7_normalizer_reference :
    normalize_text "A\r\n\r\n\r\n\r\nB" = "A\n\n\nB\n" ∧
    ∀ l : List Char,
      (normalizeL l).all (fun c => !(c == '\u000D')) = true ∧
      wsCanon (normalizeL l) = true ∧
      noAdjHws (normalizeL l) = true ∧
      noQuadNl (normalizeL l) = true ∧
      ∃ t, normalizeL l = t ++ ['\n'] ∧ strippedB t = true := by
  constructor
  · decide
  · intro l
    obtain ⟨hw, ha, hq⟩ := normalizeL_props l
    obtain ⟨_, _, _, hs⟩ := normCore_props l
    refine ⟨?_, hw, ha, hq, ⟨_, rfl, hs⟩⟩
    rw [List.all_eq_true]
    intro c hc
    have h2 := List.all_eq_true.mp hw _ hc
    by_cases he : c == '\u000D'
    · rw [beq_iff_eq.mp he] at h2
      exact absurd h2 (by decide)
    · simpa using he

/-- C8: normalization is idempotent (`normalize(normalize(x)) == normalize(x)`
for every string), and it is total on every string including the empty one,
where it returns `"\n"`. -/
theorem C8_normalize_idempotent :
    (∀ s : String, normalize_text (normalize_text s) = normalize_text s) ∧
    normalize_text "" = "\n" := by
  constructor
  · intro s
    show (⟨normalizeL (normalizeL s.data)⟩ : String) = ⟨normalizeL s.data⟩
    rw [normalizeL_idem]
  · decide

/-! ## Chunker lemmas -/

theorem pyStrip_length_le (l : List Char) : (pyStrip l).length ≤ l.length := by
  have h1 : (pyLStrip l).length ≤ l.length := (List.dropWhile_sublist pySpace).length_le
  have h2 : (pyRStrip (pyLStrip l)).length ≤ (pyLStrip l).length := by
    rw [pyRStrip, List.length_reverse]
    calc ((pyLStrip l).reverse.dropWhile pySpace).length
        ≤ (pyLStrip l).reverse.length := (List.dropWhile_sublist pySpace).length_le
      _ = (pyLStrip l).length := List.length_reverse _
  exact le_trans h2 h1

theorem le_foldr_max (xs : List Nat) (x : Nat) (h : x ∈ xs) :
    x ≤ xs.foldr max 0 := by
  induction xs with
  | nil => cases h
  | cons y ys ih =>
    rcases List.mem_cons.mp h with rfl | hm
    · exact le_max_left _ _
    · exact le_trans (ih hm) (le_max_right _ _)

theorem hardSplitAux_spec (T O : Nat) (hTO : O < T) :
    ∀ (fuel : Nat) (big : List Char) (start ov : Nat),
      big.length ≤ fuel → ov ≤ big.length → ov ≤ T →
      (∀ c ∈ (hardSplitAux T O fuel big start ov).slices, c.text.length = T) ∧
      (hardSplitAux T O fuel big start ov).buf.length ≤ T ∧
      (hardSplitAux T O fuel big start ov).ov ≤
        (hardSplitAux T O fuel big start ov).buf.length ∧
      (hardSplitAux T O fuel big start ov).ov ≤ T ∧
      concatNonOv (hardSplitAux T O fuel big start ov).slices ++
        (hardSplitAux T O fuel big start ov).buf.drop
          (hardSplitAux T O fuel big start ov).ov = big.drop ov ∧
      (∃ m, (hardSplitAux T O fuel big start ov).buf = big.drop m) ∧
      (big ≠ [] → (hardSplitAux T O fuel big start ov).buf ≠ []) := by
  intro fuel
  induction fuel with
  | zero =>
    intro big start ov hfuel hov hovT
    have hbig : big = [] := List.length_eq_zero.mp (Nat.le_zero.mp hfuel)
    subst hbig
    simp only [hardSplitAux]
    refine ⟨by simp, by simp, by simpa using hov, hovT, ?_, ⟨0, rfl⟩, fun h => absurd rfl h⟩
    simp [concatNonOv]
  | succ fuel ih =>
    intro big start ov hfuel hov hovT
    by_cases hlt : T < big.length
    · have hfuel' : (big.drop (T - O)).length ≤ fuel := by
        rw [List.length_drop]
        omega
      have hov' : O ≤ (big.drop (T - O)).length := by
        rw [List.length_drop]
        omega
      obtain ⟨ihs, ihb, ihov, ihovT, ihconcat, ⟨m, ihm⟩, ihne⟩ :=
        ih (big.drop (T - O)) (start + T - O) O hfuel' hov' (le_of_lt hTO)
      have hred : hardSplitAux T O (fuel + 1) big start ov =
          ⟨⟨big.take T, start, start + T, ov⟩ ::
            (hardSplitAux T O fuel (big.drop (T - O)) (start + T - O) O).slices,
           (hardSplitAux T O fuel (big.drop (T - O)) (start + T - O) O).buf,
           (hardSplitAux T O fuel (big.drop (T - O)) (start + T - O) O).start,
           (hardSplitAux T O fuel (big.drop (T - O)) (start + T - O) O).ov⟩ := by
        simp only [hardSplitAux, hlt, if_true]
      rw [hred]
      refine ⟨?_, ihb, ihov, ihovT, ?_, ?_, ?_⟩
      · intro c hc
        rcases List.mem_cons.mp hc with rfl | hm
        · simp only [List.length_take]
          omega
        · exact ihs c hm
      · show (big.take T).drop ov ++ _ ++ _ = big.drop ov
        rw [List.append_assoc, ihconcat, List.drop_drop, List.drop_take]
        rw [show T - O + O = T by omega]
        have : (big.drop ov).take (T - ov) ++ big.drop T = big.drop ov := by
          rw [show big.drop T = (big.drop ov).drop (T - ov) by
            rw [List.drop_drop]; congr 1; omega]
          exact List.take_append_drop _ _
        exact this
      · exact ⟨T - O + m, by rw [ihm, List.drop_drop]⟩
      · intro _
        refine ihne ?_
        intro e
        have := congrArg List.length e
        rw [List.length_drop] at this
        simp at this
        omega
    · have hred : hardSplitAux T O (fuel + 1) big start ov = ⟨[], big, start, ov⟩ := by
        simp only [hardSplitAux, hlt, if_false]
      rw [hred]
      refine ⟨by simp, Nat.le_of_not_lt hlt, hov, hovT, by simp [concatNonOv],
        ⟨0, rfl⟩, fun h => h⟩

theorem chunkStep_eq_empty (T O : Nat) (st : ChunkSt) (praw : List Char)
    (h : (pyStrip praw).isEmpty = true) : chunkStep T O st praw = st := by
  simp only [chunkStep, h, if_true]

theorem chunkStep_eq_fits (T O : Nat) (st : ChunkSt) (praw : List Char)
    (h : (pyStrip praw).isEmpty = false)
    (h2 : (st.buf ++ (if st.buf.isEmpty then [] else nl2) ++ pyStrip praw).length ≤ T) :
    chunkStep T O st praw =
      { st with buf := st.buf ++ (if st.buf.isEmpty then [] else nl2) ++ pyStrip praw } := by
  simp only [chunkStep, h, Bool.false_eq_true, if_false]
  rw [if_pos h2]

theorem chunkStep_eq_overflow (T O : Nat) (st : ChunkSt) (praw : List Char)
    (h : (pyStrip praw).isEmpty = false)
    (h3 : st.buf.isEmpty = false)
    (h2 : ¬ (st.buf ++ nl2 ++ pyStrip praw).length ≤ T) :
    chunkStep T O st praw =
      { chunks := st.chunks ++ [⟨st.buf, st.start, st.start + st.buf.length, st.bufOv⟩],
        buf := pyStrip
          ((if 0 < O && O < st.buf.length then st.buf.drop (st.buf.length - O) else []) ++
            (if (if 0 < O && O < st.buf.length then st.buf.drop (st.buf.length - O)
                else []).isEmpty then [] else nl2) ++ pyStrip praw),
        start := st.start + st.buf.length -
          (if 0 < O && O < st.buf.length then st.buf.drop (st.buf.length - O) else []).length,
        bufOv := ((if 0 < O && O < st.buf.length then st.buf.drop (st.buf.length - O)
          else []).dropWhile pySpace).length } := by
  simp only [chunkStep, h, h3, Bool.false_eq_true, Bool.not_false, if_false, if_true]
  rw [if_neg h2]

theorem chunkStep_eq_hard (T O : Nat) (st : ChunkSt) (praw : List Char)
    (h : (pyStrip praw).isEmpty = false)
    (h3 : st.buf.isEmpty = true)
    (h2 : ¬ (pyStrip praw).length ≤ T) :
    chunkStep T O st praw =
      { chunks := st.chunks ++
          (hardSplitAux T O (pyStrip praw).length (pyStrip praw) st.start 0).slices,
        buf := (hardSplitAux T O (pyStrip praw).length (pyStrip praw) st.start 0).buf,
        start := (hardSplitAux T O (pyStrip praw).length (pyStrip praw) st.start 0).start,
        bufOv := (hardSplitAux T O (pyStrip praw).length (pyStrip praw) st.start 0).ov } := by
  have hb : st.buf = [] := List.isEmpty_iff.mp h3
  simp only [chunkStep, h, hb, Bool.false_eq_true, if_false, List.isEmpty_nil, if_true,
    List.nil_append, Bool.not_true]
  rw [if_neg h2]

theorem chunkStep_bound (T O M : Nat) (hTO : O < T) (hTM : T ≤ M) (st : ChunkSt)
    (p : List Char) (hp : O + 2 + (pyStrip p).length ≤ M)
    (h1 : ∀ c ∈ st.chunks, c.text.length ≤ M) (h2 : st.buf.length ≤ M) :
    (∀ c ∈ (chunkStep T O st p).chunks, c.text.length ≤ M) ∧
    (chunkStep T O st p).buf.length ≤ M := by
  by_cases hE : (pyStrip p).isEmpty = true
  · rw [chunkStep_eq_empty T O st p hE]
    exact ⟨h1, h2⟩
  · have hE' : (pyStrip p).isEmpty = false := by simpa using hE
    by_cases hF : (st.buf ++ (if st.buf.isEmpty then [] else nl2) ++ pyStrip p).length ≤ T
    · rw [chunkStep_eq_fits T O st p hE' hF]
      exact ⟨h1, le_trans hF hTM⟩
    · by_cases hB : st.buf.isEmpty = true
      · have hb : st.buf = [] := List.isEmpty_iff.mp hB
        have hF' : ¬ (pyStrip p).length ≤ T := by
          simpa [hb] using hF
        rw [chunkStep_eq_hard T O st p hE' hB hF']
        obtain ⟨hs, hbl, _, _, _, _, _⟩ :=
          hardSplitAux_spec T O hTO (pyStrip p).length (pyStrip p) st.start 0
            le_rfl (Nat.zero_le _) (Nat.zero_le _)
        constructor
        · intro c hc
          rcases List.mem_append.mp hc with hm | hm
          · exact h1 c hm
          · rw [hs c hm]; exact hTM
        · exact le_trans hbl hTM
      · have hB' : st.buf.isEmpty = false := by simpa using hB
        have hF' : ¬ (st.buf ++ nl2 ++ pyStrip p).length ≤ T := by
          simpa [hB'] using hF
        rw [chunkStep_eq_overflow T O st p hE' hB' hF']
        constructor
        · intro c hc
          rcases List.mem_append.mp hc with hm | hm
          · exact h1 c hm
          · rcases List.mem_singleton.mp hm with rfl
            exact h2
        · refine le_trans (pyStrip_length_le _) ?_
          rw [List.length_append, List.length_append]
          have hts : (if 0 < O && O < st.buf.length then
              st.buf.drop (st.buf.length - O) else []).length ≤ O := by
            by_cases hc : (0 < O && O < st.buf.length) = true
            · rw [if_pos hc, List.length_drop]
              omega
            · rw [if_neg (by simpa using hc)]
              simp
          have hsep : (if (if 0 < O && O < st.buf.length then
              st.buf.drop (st.buf.length - O) else []).isEmpty then ([] : List Char)
              else nl2).length ≤ 2 := by
            by_cases hc : (if 0 < O && O < st.buf.length then
                st.buf.drop (st.buf.length - O) else []).isEmpty = true
            · rw [if_pos hc]; simp
            · rw [if_neg (by simpa using hc)]; rfl
          omega

theorem chunkFold_bound (T O M : Nat) (hTO : O < T) (hTM : T ≤ M) :
    ∀ (ps : List (List Char)) (st : ChunkSt),
      (∀ p ∈ ps, O + 2 + (pyStrip p).length ≤ M) →
      (∀ c ∈ st.chunks, c.text.length ≤ M) →
      st.buf.length ≤ M →
      (∀ c ∈ (ps.foldl (chunkStep T O) st).chunks, c.text.length ≤ M) ∧
      (ps.foldl (chunkStep T O) st).buf.length ≤ M := by
  intro ps
  induction ps with
  | nil => intro st _ h1 h2; exact ⟨h1, h2⟩
  | cons p ps ih =>
    intro st hps h1 h2
    rw [List.foldl_cons]
    obtain ⟨g1, g2⟩ := chunkStep_bound T O M hTO hTM st p
      (hps p (List.mem_cons_self p ps)) h1 h2
    exact ih (chunkStep T O st p) (fun q hq => hps q (List.mem_cons_of_mem p hq)) g1 g2

/-- C2 (amended): with `O < T`, every chunk emitted by `chunk_paragraph_aware`
has text length at most `max T (O + 2 + P)`, where `P` is the maximum
stripped-paragraph length of the input (a chunk seeded from an overlap tail
can exceed `T` by up to the tail plus the blank-line separator); and every
slice emitted by the hard-split loop has length exactly `T` (the remainder
that may be shorter is carried into the buffer, not emitted by the loop). -/
theorem C2_chunk_size_bound (text : List Char) (T O : Nat) (h : O < T) :
    (∀ c ∈ chunk_paragraph_aware text T O,
      c.text.length ≤ max T (O + 2 + maxParaLen text)) ∧
    (∀ (fuel : Nat) (big : List Char) (start ov : Nat),
      big.length ≤ fuel → ov ≤ big.length → ov ≤ T →
      ∀ c ∈ (hardSplitAux T O fuel big start ov).slices, c.text.length = T) := by
  constructor
  · intro c hc
    set M := max T (O + 2 + maxParaLen text) with hM
    have hTM : T ≤ M := le_max_left _ _
    have hps : ∀ p ∈ splitParas text, O + 2 + (pyStrip p).length ≤ M := by
      intro p hp
      have : (pyStrip p).length ≤ maxParaLen text := by
        refine le_foldr_max _ _ ?_
        exact List.mem_map.mpr ⟨p, hp, rfl⟩
      have h2 : O + 2 + (pyStrip p).length ≤ O + 2 + maxParaLen text := by omega
      exact le_trans h2 (le_max_right _ _)
    obtain ⟨g1, g2⟩ := chunkFold_bound T O M h hTM (splitParas text)
      ⟨[], [], 0, 0⟩ hps (by simp) (by simp)
    rw [chunk_paragraph_aware] at hc
    by_cases hB : ((splitParas text).foldl (chunkStep T O) ⟨[], [], 0, 0⟩).buf.isEmpty = true
    · rw [if_pos hB] at hc
      exact g1 c hc
    · rw [if_neg hB] at hc
      rcases List.mem_append.mp hc with hm | hm
      · exact g1 c hm
      · rcases List.mem_singleton.mp hm with rfl
        exact g2
  · intro fuel big start ov hfuel hovl hovT
    exact (hardSplitAux_spec T O h fuel big start ov hfuel hovl hovT).1

/-- Witness for C2 at a concrete input. -/
theorem C2_chunk_size_bound_witness :
    (0 < 10) ∧
    ((∀ c ∈ chunk_paragraph_aware "aaaa\n\nbb".data 10 0,
      c.text.length ≤ max 10 (0 + 2 + maxParaLen "aaaa\n\nbb".data)) ∧
    (∀ (fuel : Nat) (big : List Char) (start ov : Nat),
      big.length ≤ fuel → ov ≤ big.length → ov ≤ 10 →
      ∀ c ∈ (hardSplitAux 10 0 fuel big start ov).slices, c.text.length = 10)) :=
  ⟨by decide, C2_chunk_size_bound "aaaa\n\nbb".data 10 0 (by decide)⟩

/-- C2 counterexample: with `T = 10`, `O = 3` and two 8-character paragraphs
no paragraph exceeds `T` (so no chunk is hard-split), yet the second emitted
chunk is the overlap-seeded buffer of length 13 > `T`. -/
theorem C2_claim_counterexample :
    (∀ p ∈ parasNE "aaaaaaaa\n\nbbbbbbbb".data, p.length ≤ 10) ∧
    ∃ c ∈ chunk_paragraph_aware "aaaaaaaa\n\nbbbbbbbb".data 10 3,
      10 < c.text.length := by
  decide

theorem concatNonOv_append (a b : List ChunkRec) :
    concatNonOv (a ++ b) = concatNonOv a ++ concatNonOv b := by
  induction a with
  | nil => simp [concatNonOv]
  | cons c r ih => simp [concatNonOv, ih]

theorem joinSeps_snoc : ∀ (ps : List (List Char)) (ss : List (List Char))
    (p s : List Char), ps ≠ [] → ps.length = ss.length + 1 →
    joinSeps (ps ++ [p]) (ss ++ [s]) = joinSeps ps ss ++ s ++ p := by
  intro ps
  induction ps with
  | nil => intro ss p s h _; exact absurd rfl h
  | cons q ps ih =>
    intro ss p s _ hlen
    cases ps with
    | nil =>
      cases ss with
      | nil => simp [joinSeps]
      | cons s' ss' => simp at hlen
    | cons q' ps' =>
      cases ss with
      | nil => simp at hlen
      | cons s' ss' =>
        have hlen' : (q' :: ps').length = ss'.length + 1 := by
          simpa using hlen
        show q ++ s' ++ joinSeps (q' :: ps' ++ [p]) (ss' ++ [s]) =
          joinSeps (q :: q' :: ps') (s' :: ss') ++ s ++ p
        rw [ih ss' p s (by simp) hlen']
        show q ++ s' ++ (joinSeps (q' :: ps') ss' ++ s ++ p) =
          q ++ s' ++ joinSeps (q' :: ps') ss' ++ s ++ p
        simp [List.append_assoc]

theorem lastNonWs_of_strippedB (l : List Char) (h : strippedB l = true) :
    ∀ c, l.getLast? = some c → pySpace c = false := by
  intro c hc
  simp only [strippedB, Bool.and_eq_true] at h
  rw [List.getLast?_eq_head?_reverse] at hc
  cases hrev : l.reverse with
  | nil => rw [hrev] at hc; simp at hc
  | cons d t =>
    rw [hrev] at hc
    simp only [List.head?_cons, Option.some.injEq] at hc
    subst hc
    have := h.2
    rw [hrev] at this
    simpa [headNoWs] using this

theorem headNoWs_append_ne (a b : List Char) (ha : a ≠ []) :
    headNoWs (a ++ b) = headNoWs a := by
  cases a with
  | nil => exact absurd rfl ha
  | cons c r => rfl

theorem dropWhile_append_of_ne_nil (a b : List Char)
    (ha : a.dropWhile pySpace ≠ []) :
    (a ++ b).dropWhile pySpace = a.dropWhile pySpace ++ b := by
  induction a with
  | nil => exact absurd rfl ha
  | cons c r ih =>
    by_cases hc : pySpace c = true
    · have ha' : r.dropWhile pySpace ≠ [] := by
        rw [List.dropWhile_cons, if_pos hc] at ha
        exact ha
      rw [List.cons_append, List.dropWhile_cons, if_pos hc,
        show List.dropWhile pySpace (c :: r) = List.dropWhile pySpace r from by
          rw [List.dropWhile_cons, if_pos hc]]
      exact ih ha'
    · have hc' : pySpace c = false := by simpa using hc
      have e1 : List.dropWhile pySpace (c :: (r ++ b)) = c :: (r ++ b) := by
        rw [List.dropWhile_cons, if_neg (by simp [hc'])]
      have e2 : List.dropWhile pySpace (c :: r) = c :: r := by
        rw [List.dropWhile_cons, if_neg (by simp [hc'])]
      rw [List.cons_append, e1, e2]
      simp

theorem dropWhile_ne_nil_of_last (l : List Char)
    (h : ∀ c, l.getLast? = some c → pySpace c = false) (hne : l ≠ []) :
    l.dropWhile pySpace ≠ [] := by
  intro he
  have hall := List.dropWhile_eq_nil_iff.mp he
  obtain ⟨c, hc⟩ : ∃ c, l.getLast? = some c := by
    cases l with
    | nil => exact absurd rfl hne
    | cons a t => exact ⟨(a :: t).getLast (by simp), List.getLast?_eq_getLast _ _⟩
  have hmem : c ∈ l := by
    cases l with
    | nil => exact absurd rfl hne
    | cons a t =>
      have : (a :: t).getLast (by simp) = c := by
        have := List.getLast?_eq_getLast (a :: t) (by simp)
        rw [this] at hc
        exact (Option.some.injEq _ _).mp hc
      rw [← this]
      exact List.getLast_mem _
  exact absurd (hall c hmem) (by simp [h c hc])

theorem pyRStrip_append_of_last (a b : List Char) (hb : b ≠ [])
    (h : headNoWs b.reverse = true) : pyRStrip (a ++ b) = a ++ b := by
  apply pyRStrip_id
  rw [List.reverse_append, headNoWs_append_ne _ _ (by simpa using hb)]
  exact h

theorem pyStrip_seed (tailSeed p' : List Char)
    (htl : ∀ c, tailSeed.getLast? = some c → pySpace c = false)
    (htne : tailSeed ≠ []) (hp : strippedB p' = true) (hpne : p' ≠ []) :
    pyStrip (tailSeed ++ nl2 ++ p') = tailSeed.dropWhile pySpace ++ nl2 ++ p' := by
  have hdw : tailSeed.dropWhile pySpace ≠ [] := dropWhile_ne_nil_of_last _ htl htne
  have h1 : pyLStrip (tailSeed ++ nl2 ++ p') =
      tailSeed.dropWhile pySpace ++ (nl2 ++ p') := by
    rw [show tailSeed ++ nl2 ++ p' = tailSeed ++ (nl2 ++ p') from by simp]
    exact dropWhile_append_of_ne_nil _ _ hdw
  rw [pyStrip, h1]
  rw [show tailSeed.dropWhile pySpace ++ (nl2 ++ p') =
    (tailSeed.dropWhile pySpace ++ nl2) ++ p' from by simp]
  apply pyRStrip_append_of_last _ _ hpne
  simp only [strippedB, Bool.and_eq_true] at hp
  exact hp.2

theorem ne_nil_of_isEmpty_false {l : List Char} (h : l.isEmpty = false) :
    l ≠ [] := by
  intro e
  rw [e] at h
  simp at h

theorem chunkStep_inv (T O : Nat) (hTO : O < T) (st : ChunkSt) (p : List Char)
    (A : List (List Char)) (hInv : ChunkInv A st) :
    ChunkInv (A ++ (if (pyStrip p).isEmpty then [] else [pyStrip p]))
      (chunkStep T O st p) := by
  obtain ⟨ss, hvalid, hlen, hconcat, hiff, hemp, hovle, hlast⟩ := hInv
  by_cases hE : (pyStrip p).isEmpty = true
  · rw [chunkStep_eq_empty T O st p hE, if_pos hE, List.append_nil]
    exact ⟨ss, hvalid, hlen, hconcat, hiff, hemp, hovle, hlast⟩
  · have hE' : (pyStrip p).isEmpty = false := by simpa using hE
    have hpne : pyStrip p ≠ [] := ne_nil_of_isEmpty_false hE'
    have hpstr : strippedB (pyStrip p) = true := strippedB_pyStrip p
    have hplast : ∀ c, (pyStrip p).getLast? = some c → pySpace c = false :=
      lastNonWs_of_strippedB _ hpstr
    rw [if_neg hE]
    by_cases hF : (st.buf ++ (if st.buf.isEmpty then [] else nl2) ++ pyStrip p).length ≤ T
    · rw [chunkStep_eq_fits T O st p hE' hF]
      by_cases hbe : st.buf = []
      · have hA : A = [] := hiff.mp hbe
        obtain ⟨hch, hov0⟩ := hemp hbe
        refine ⟨[], by simp, by simp [hA], ?_, ?_, ?_, ?_, ?_⟩
        · show concatNonOv st.chunks ++
            (st.buf ++ (if st.buf.isEmpty then [] else nl2) ++ pyStrip p).drop st.bufOv =
            joinSeps (A ++ [pyStrip p]) []
          rw [hch, hov0, hbe, hA]
          simp [concatNonOv, joinSeps]
        · show st.buf ++ (if st.buf.isEmpty then [] else nl2) ++ pyStrip p = [] ↔
            A ++ [pyStrip p] = []
          rw [hbe, hA]
          simp [hpne]
        · intro h
          rw [hbe] at h
          simp [hpne] at h
        · show st.bufOv ≤ (st.buf ++ (if st.buf.isEmpty then [] else nl2) ++ pyStrip p).length
          rw [hov0]
          exact Nat.zero_le _
        · intro c hc
          rw [hbe] at hc
          simp only [List.isEmpty_nil, if_true, List.nil_append] at hc
          exact hplast c hc
      · have hA : A ≠ [] := fun e => hbe (hiff.mpr e)
        have hlen' : A.length = ss.length + 1 := by
          rcases hlen with h | ⟨h1, _⟩
          · exact h
          · exact absurd h1 hA
        have hbie : st.buf.isEmpty = false := by
          cases hb : st.buf with
          | nil => exact absurd hb hbe
          | cons x xs => rfl
        refine ⟨ss ++ [nl2], ?_, ?_, ?_, ?_, ?_, ?_, ?_⟩
        · intro s hs
          rcases List.mem_append.mp hs with hm | hm
          · exact hvalid s hm
          · rcases List.mem_singleton.mp hm with rfl
            exact Or.inl rfl
        · left
          simp [hlen']
        · show concatNonOv st.chunks ++
            (st.buf ++ (if st.buf.isEmpty then [] else nl2) ++ pyStrip p).drop st.bufOv =
            joinSeps (A ++ [pyStrip p]) (ss ++ [nl2])
          rw [hbie, joinSeps_snoc A ss (pyStrip p) nl2 hA hlen', ← hconcat]
          simp only [Bool.false_eq_true, if_false]
          rw [show st.buf ++ nl2 ++ pyStrip p = st.buf ++ (nl2 ++ pyStrip p) from by simp,
            List.drop_append_of_le_length hovle]
          simp [List.append_assoc]
        · rw [hbie]
          simp only [Bool.false_eq_true, if_false]
          constructor
          · intro h
            exact absurd h (by simp [hbe])
          · intro h
            exact absurd h (by simp [hA])
        · intro h
          exact absurd h (by simp [hbe, hbie])
        · show st.bufOv ≤ (st.buf ++ (if st.buf.isEmpty then [] else nl2) ++ pyStrip p).length
          rw [List.length_append, List.length_append]
          omega
        · intro c hc
          rw [hbie] at hc
          simp only [Bool.false_eq_true, if_false] at hc
          rw [show st.buf ++ nl2 ++ pyStrip p = (st.buf ++ nl2) ++ pyStrip p from by simp,
            List.getLast?_append_of_ne_nil _ hpne] at hc
          exact hplast c hc
    · by_cases hB : st.buf.isEmpty = true
      · -- hard-split branch: the buffer is empty, hence nothing processed yet
        have hbe : st.buf = [] := List.isEmpty_iff.mp hB
        have hA : A = [] := hiff.mp hbe
        obtain ⟨hch, hov0⟩ := hemp hbe
        have hF' : ¬ (pyStrip p).length ≤ T := by simpa [hbe] using hF
        rw [chunkStep_eq_hard T O st p hE' hB hF']
        obtain ⟨_, _, hrov, _, hrconcat, ⟨m, hm⟩, hrne⟩ :=
          hardSplitAux_spec T O hTO (pyStrip p).length (pyStrip p) st.start 0
            le_rfl (Nat.zero_le _) (Nat.zero_le _)
        have hrbufne : (hardSplitAux T O (pyStrip p).length (pyStrip p) st.start 0).buf ≠ [] :=
          hrne hpne
        refine ⟨[], by simp, by simp [hA], ?_, ?_, ?_, hrov, ?_⟩
        · show concatNonOv (st.chunks ++
            (hardSplitAux T O (pyStrip p).length (pyStrip p) st.start 0).slices) ++
            ((hardSplitAux T O (pyStrip p).length (pyStrip p) st.start 0).buf).drop
              ((hardSplitAux T O (pyStrip p).length (pyStrip p) st.start 0).ov) =
            joinSeps (A ++ [pyStrip p]) []
          rw [hch, hA]
          simp only [List.nil_append]
          rw [hrconcat]
          simp [joinSeps]
        · rw [hA]
          simp [hrbufne]
        · intro h
          exact absurd h hrbufne
        · intro c hc
          rw [hm] at hc hrbufne
          rw [show pyStrip p = (pyStrip p).take m ++ (pyStrip p).drop m from
            (List.take_append_drop m (pyStrip p)).symm,
            List.getLast?_append_of_ne_nil _ hrbufne] at hplast
          exact hplast c hc
      · -- overflow branch: emit the buffer, seed the next one from its tail
        have hbie : st.buf.isEmpty = false := by simpa using hB
        have hbe : st.buf ≠ [] := ne_nil_of_isEmpty_false hbie
        have hA : A ≠ [] := fun e => hbe (hiff.mpr e)
        have hlen' : A.length = ss.length + 1 := by
          rcases hlen with h | ⟨h1, _⟩
          · exact h
          · exact absurd h1 hA
        have hF' : ¬ (st.buf ++ nl2 ++ pyStrip p).length ≤ T := by
          simpa [hbie] using hF
        rw [chunkStep_eq_overflow T O st p hE' hbie hF']
        set tl := (if 0 < O && O < st.buf.length then
          st.buf.drop (st.buf.length - O) else []) with htl
        have hseed : pyStrip (tl ++ (if tl.isEmpty then [] else nl2) ++ pyStrip p) =
            tl.dropWhile pySpace ++ (if tl.isEmpty then [] else nl2) ++ pyStrip p ∧
            ((tl.dropWhile pySpace).length ≤
              (tl.dropWhile pySpace ++ (if tl.isEmpty then [] else nl2) ++ pyStrip p).length) := by
          by_cases htle : tl = []
          · rw [htle]
            simp only [List.isEmpty_nil, if_true, List.nil_append,
              List.dropWhile_nil]
            exact ⟨pyStrip_id _ hpstr, by simp⟩
          · have htlie : tl.isEmpty = false := by
              cases h : tl with
              | nil => exact absurd h htle
              | cons x xs => rfl
            rw [htlie]
            simp only [Bool.false_eq_true, if_false]
            have hcond : (0 < O && O < st.buf.length) = true := by
              by_contra hc
              have : tl = [] := by
                rw [htl, if_neg (by simpa using hc)]
              exact htle this
            have htlast : ∀ c, tl.getLast? = some c → pySpace c = false := by
              intro c hc
              apply hlast c
              rw [htl, if_pos hcond] at hc
              rw [show st.buf = st.buf.take (st.buf.length - O) ++
                st.buf.drop (st.buf.length - O) from
                (List.take_append_drop _ _).symm]
              rw [List.getLast?_append_of_ne_nil _ (by
                rw [htl, if_pos hcond] at htle
                exact htle)]
              exact hc
            exact ⟨pyStrip_seed tl (pyStrip p) htlast htle hpstr hpne,
              by simp [List.length_append]⟩
        refine ⟨ss ++ [if tl.isEmpty then [] else nl2], ?_, ?_, ?_, ?_, ?_, ?_, ?_⟩
        · intro s hs
          rcases List.mem_append.mp hs with hm | hm
          · exact hvalid s hm
          · rcases List.mem_singleton.mp hm with rfl
            by_cases htle : tl.isEmpty = true
            · rw [if_pos htle]; exact Or.inr rfl
            · rw [if_neg htle]; exact Or.inl rfl
        · left
          simp [hlen']
        · show concatNonOv (st.chunks ++
            [⟨st.buf, st.start, st.start + st.buf.length, st.bufOv⟩]) ++
            (pyStrip (tl ++ (if tl.isEmpty then [] else nl2) ++ pyStrip p)).drop
              ((tl.dropWhile pySpace).length) =
            joinSeps (A ++ [pyStrip p]) (ss ++ [if tl.isEmpty then [] else nl2])
          rw [concatNonOv_append, hseed.1,
            joinSeps_snoc A ss (pyStrip p) _ hA hlen']
          rw [show tl.dropWhile pySpace ++ (if tl.isEmpty then [] else nl2) ++ pyStrip p =
            tl.dropWhile pySpace ++ ((if tl.isEmpty then [] else nl2) ++ pyStrip p) from by
              simp, List.drop_left]
          rw [show concatNonOv [⟨st.buf, st.start, st.start + st.buf.length, st.bufOv⟩] =
            st.buf.drop st.bufOv from by simp [concatNonOv], ← hconcat]
          simp [List.append_assoc]
        · constructor
          · intro h
            rw [hseed.1] at h
            simp only [List.append_eq_nil] at h
            exact absurd h.2 hpne
          · intro h
            exact absurd h (by simp [hA])
        · intro h
          rw [hseed.1] at h
          simp only [List.append_eq_nil] at h
          exact absurd h.2 hpne
        · rw [hseed.1]
          exact hseed.2
        · intro c hc
          rw [hseed.1] at hc
          rw [show tl.dropWhile pySpace ++ (if tl.isEmpty then [] else nl2) ++ pyStrip p =
            (tl.dropWhile pySpace ++ (if tl.isEmpty then [] else nl2)) ++ pyStrip p from by
              simp, List.getLast?_append_of_ne_nil _ hpne] at hc
          exact hplast c hc

theorem chunkFold_inv (T O : Nat) (hTO : O < T) :
    ∀ (ps : List (List Char)) (A : List (List Char)) (st : ChunkSt),
      ChunkInv A st →
      ChunkInv (A ++ (ps.map pyStrip).filter (fun q => !q.isEmpty))
        (ps.foldl (chunkStep T O) st) := by
  intro ps
  induction ps with
  | nil => intro A st h; simpa using h
  | cons p ps ih =>
    intro A st h
    rw [List.foldl_cons]
    have hstep := chunkStep_inv T O hTO st p A h
    have hres := ih (A ++ (if (pyStrip p).isEmpty then [] else [pyStrip p]))
      (chunkStep T O st p) hstep
    rw [List.map_cons, List.filter_cons]
    by_cases he : (pyStrip p).isEmpty = true
    · rw [if_pos he] at hstep hres
      simp only [he, Bool.not_true, Bool.false_eq_true, if_false]
      simpa using hres
    · have he' : (pyStrip p).isEmpty = false := by simpa using he
      rw [if_neg he] at hstep hres
      simp only [he', Bool.not_false, if_true]
      rw [show A ++ pyStrip p :: (ps.map pyStrip).filter (fun q => !q.isEmpty) =
        (A ++ [pyStrip p]) ++ (ps.map pyStrip).filter (fun q => !q.isEmpty) from by simp]
      exact hres

/-- C3 (amended): for every text and `O < T`, concatenating in order the
chunks' texts with each chunk's overlap prefix removed reproduces the
non-empty stripped paragraphs in their original order, joined by separators
each of which is either the blank line `"\n\n"` or empty — the separator is
empty exactly at a chunk boundary where no overlap tail was seeded (e.g.
`O = 0`, or the emitted chunk no longer than `O`). -/
theorem C3_chunk_coverage (text : List Char) (T O : Nat) (h : O < T) :
    ∃ ss : List (List Char), (∀ s ∈ ss, s = nl2 ∨ s = []) ∧
      concatNonOv (chunk_paragraph_aware text T O) = joinSeps (parasNE text) ss := by
  have hinit : ChunkInv [] ⟨[], [], 0, 0⟩ := by
    refine ⟨[], by simp, Or.inr ⟨rfl, rfl⟩, by simp [concatNonOv, joinSeps], ?_, ?_, ?_, ?_⟩
    · simp
    · intro _; exact ⟨rfl, rfl⟩
    · simp
    · intro c hc; simp at hc
  have hInv := chunkFold_inv T O h (splitParas text) [] ⟨[], [], 0, 0⟩ hinit
  rw [List.nil_append] at hInv
  obtain ⟨ss, hvalid, _, hconcat, _, _, _, _⟩ := hInv
  refine ⟨ss, hvalid, ?_⟩
  rw [chunk_paragraph_aware]
  by_cases hb : ((splitParas text).foldl (chunkStep T O) ⟨[], [], 0, 0⟩).buf.isEmpty = true
  · rw [if_pos hb]
    have hbe := List.isEmpty_iff.mp hb
    rw [hbe] at hconcat
    simpa [parasNE] using hconcat
  · rw [if_neg hb]
    rw [concatNonOv_append]
    rw [show concatNonOv
      [⟨((splitParas text).foldl (chunkStep T O) ⟨[], [], 0, 0⟩).buf,
        ((splitParas text).foldl (chunkStep T O) ⟨[], [], 0, 0⟩).start,
        ((splitParas text).foldl (chunkStep T O) ⟨[], [], 0, 0⟩).start +
          ((splitParas text).foldl (chunkStep T O) ⟨[], [], 0, 0⟩).buf.length,
        ((splitParas text).foldl (chunkStep T O) ⟨[], [], 0, 0⟩).bufOv⟩] =
      (((splitParas text).foldl (chunkStep T O) ⟨[], [], 0, 0⟩).buf).drop
        (((splitParas text).foldl (chunkStep T O) ⟨[], [], 0, 0⟩).bufOv) from by
      simp [concatNonOv]]
    simpa [parasNE] using hconcat

/-- Witness for C3 at a concrete input. -/
theorem C3_chunk_coverage_witness :
    (0 < 10) ∧ ∃ ss : List (List Char), (∀ s ∈ ss, s = nl2 ∨ s = []) ∧
      concatNonOv (chunk_paragraph_aware "aaaa\n\nbb".data 10 0) =
        joinSeps (parasNE "aaaa\n\nbb".data) ss :=
  ⟨by decide, C3_chunk_coverage "aaaa\n\nbb".data 10 0 (by decide)⟩

/-- C3 counterexample: the claim as stated (concatenation with overlap
prefixes removed equals the paragraphs joined by `"\n\n"` throughout) fails
at `T = 10`, `O = 0`: the chunker emits `"aaaa"` and `"bbbbbb"` with no
seeded tail, so the blank-line separator between the two paragraphs is lost. -/
theorem C3_claim_counterexample :
    concatNonOv (chunk_paragraph_aware "aaaa\n\nbbbbbb".data 10 0) ≠
      interNl2 (parasNE "aaaa\n\nbbbbbb".data) := by decide

/-! ## Boilerplate filtering (C9) -/

theorem collectHits_mem (tbl : List (String × String)) (k : Nat) :
    ∀ (ranked out : List String) (cid : String),
      cid ∈ collectHits tbl k ranked out →
      cid ∈ out ∨ ∃ txt, lookupChunkText tbl cid = some txt ∧
        ∀ b ∈ BOILERPLATE, isSub b.data (pyLower txt.data) = false := by
  intro ranked
  induction ranked with
  | nil =>
    intro out cid h
    rw [show collectHits tbl k [] out = out from rfl] at h
    exact Or.inl h
  | cons c rest ih =>
    intro out cid h
    cases hl : lookupChunkText tbl c with
    | none =>
      rw [show collectHits tbl k (c :: rest) out = collectHits tbl k rest out from by
        simp only [collectHits, hl]] at h
      exact ih out cid h
    | some txt =>
      by_cases hb : BOILERPLATE.any (fun b => isSub b.data (pyLower txt.data)) = true
      · rw [show collectHits tbl k (c :: rest) out = collectHits tbl k rest out from by
          simp only [collectHits, hl, hb, if_true]] at h
        exact ih out cid h
      · have hb' : BOILERPLATE.any (fun b => isSub b.data (pyLower txt.data)) = false := by
          simpa using hb
        have hprop : ∀ b ∈ BOILERPLATE, isSub b.data (pyLower txt.data) = false := by
          intro b hbm
          have := List.any_eq_false.mp hb' b hbm
          simpa using this
        by_cases hk : k ≤ (out ++ [c]).length
        · rw [show collectHits tbl k (c :: rest) out = out ++ [c] from by
            simp only [collectHits, hl, hb', Bool.false_eq_true, if_false]
            rw [if_pos hk]] at h
          rcases List.mem_append.mp h with hm | hm
          · exact Or.inl hm
          · rcases List.mem_singleton.mp hm with rfl
            exact Or.inr ⟨txt, hl, hprop⟩
        · rw [show collectHits tbl k (c :: rest) out =
            collectHits tbl k rest (out ++ [c]) from by
            simp only [collectHits, hl, hb', Bool.false_eq_true, if_false]
            rw [if_neg hk]] at h
          rcases ih (out ++ [c]) cid h with hm | hm
          · rcases List.mem_append.mp hm with hm2 | hm2
            · exact Or.inl hm2
            · rcases List.mem_singleton.mp hm2 with rfl
              exact Or.inr ⟨txt, hl, hprop⟩
          · exact Or.inr hm

/-- C9: every chunk id returned by `search_chunks` refers to a stored chunk
whose lowercased text contains none of the `BOILERPLATE` marker phrases —
a chunk containing such a phrase is never returned, regardless of its rank
in the candidate list. -/
theorem C9_boilerplate_filtering (tbl : List (String × String))
    (ranked : List String) (k : Nat) (cid : String)
    (h : cid ∈ search_chunks tbl ranked k) :
    ∃ txt, lookupChunkText tbl cid = some txt ∧
      ∀ b ∈ BOILERPLATE, isSub b.data (pyLower txt.data) = false := by
  rcases collectHits_mem tbl k ranked [] cid h with hm | hm
  · simp at hm
  · exact hm

/-- Witness for C9: a boilerplate chunk ranked first is filtered out and the
clean chunk is returned. -/
theorem C9_boilerplate_filtering_witness :
    ("c2" ∈ search_chunks
      [("c1", "The Project Gutenberg eBook of X"), ("c2", "real content")]
      ["c1", "c2"] 8) ∧
    ∃ txt, lookupChunkText
      [("c1", "The Project Gutenberg eBook of X"), ("c2", "real content")] "c2" =
        some txt ∧
      ∀ b ∈ BOILERPLATE, isSub b.data (pyLower txt.data) = false :=
  ⟨by decide, C9_boilerplate_filtering
    [("c1", "The Project Gutenberg eBook of X"), ("c2", "real content")]
    ["c1", "c2"] 8 "c2" (by decide)⟩

/-! ## Chunk identity (C10) -/

theorem chunkRows_ids_aux (d : String) : ∀ (cs cs' : List ChunkRec) (n : Nat),
    cs.map (fun c => (c.start, c.stop)) = cs'.map (fun c => (c.start, c.stop)) →
    (List.enumFrom n cs).map (fun ic => mkChunkId d ic.1 ic.2.start ic.2.stop) =
    (List.enumFrom n cs').map (fun ic => mkChunkId d ic.1 ic.2.start ic.2.stop) := by
  intro cs
  induction cs with
  | nil =>
    intro cs' n h
    cases cs' with
    | nil => rfl
    | cons c' r' => simp at h
  | cons c r ih =>
    intro cs' n h
    cases cs' with
    | nil => simp at h
    | cons c' r' =>
      simp only [List.map_cons, List.cons.injEq, Prod.mk.injEq] at h
      obtain ⟨⟨hs, he⟩, ht⟩ := h
      rw [List.enumFrom_cons, List.enumFrom_cons, List.map_cons, List.map_cons]
      rw [show mkChunkId d n c.start c.stop = mkChunkId d n c'.start c'.stop from by
        rw [hs, he]]
      rw [ih r' (n + 1) ht]

/-- C10: a chunk id is the SHA-1 of the string
`"{doc_id}:{chunk_idx}:{start_char}:{end_char}"` and does not depend on the
chunk's text: two ingestion runs of the same document whose chunks have
pairwise equal `(start, end)` offset sequences (hence equal indices) produce
identical chunk-id sequences even when every chunk text differs, so
re-ingesting modified content reuses old chunk ids whenever offsets
coincide. -/
theorem C10_chunk_id_text_independent :
    (∀ (d : String) (idx s e : Nat), mkChunkId d idx s e =
      sha1Hex (d ++ ":" ++ toString idx ++ ":" ++ toString s ++ ":" ++ toString e)) ∧
    ∀ (d : String) (cs cs' : List ChunkRec),
      cs.map (fun c => (c.start, c.stop)) = cs'.map (fun c => (c.start, c.stop)) →
      (chunkRowsFor d cs).map (fun r => r.chunk_id) =
        (chunkRowsFor d cs').map (fun r => r.chunk_id) := by
  refine ⟨fun d idx s e => rfl, fun d cs cs' h => ?_⟩
  show ((List.enum cs).map _).map _ = ((List.enum cs').map _).map _
  rw [List.map_map, List.map_map]
  exact chunkRows_ids_aux d cs cs' 0 h

/-- Witness for C10: the one-chunk documents "aaaa" and "bbbb" have equal
offsets and different texts, and get the same chunk id. -/
theorem C10_chunk_id_text_independent_witness :
    ((chunk_paragraph_aware "aaaa".data 10 0).map (fun c => (c.start, c.stop)) =
      (chunk_paragraph_aware "bbbb".data 10 0).map (fun c => (c.start, c.stop))) ∧
    (chunkRowsFor "d" (chunk_paragraph_aware "aaaa".data 10 0)).map
        (fun r => r.chunk_id) =
      (chunkRowsFor "d" (chunk_paragraph_aware "bbbb".data 10 0)).map
        (fun r => r.chunk_id) :=
  ⟨by decide, C10_chunk_id_text_independent.2 "d"
    (chunk_paragraph_aware "aaaa".data 10 0)
    (chunk_paragraph_aware "bbbb".data 10 0) (by decide)⟩

/-! ## Volume parsing (C6) -/

/-- C6 counterexample: the filename `"Foo Vol. 2 of 3.pdf"` contains the
substring `"Vol. 2 of 3"`, but pattern 1 requires surrounding parentheses,
so the bare-`Vol` pattern 2 matches first and `parse_volume` returns
`(2, None)`, not `(2, 3)`. -/
theorem C6_claim_counterexample :
    isSub "Vol. 2 of 3".data "Foo Vol. 2 of 3.pdf".data = true ∧
    parse_volume "Foo Vol. 2 of 3.pdf" = (some 2, none) ∧
    parse_volume "Foo Vol. 2 of 3.pdf" ≠ (some 2, some 3) := by
  decide

/-- C6 (amended): a filename whose volume marker is the parenthesized
`"(Vol. 2 of 3)"` yields `(2, 3)`; a bare `"Vol. 2 of 3"` without
parentheses matches the bare-`Vol` pattern first and yields `(2, None)`;
and a filename whose only volume marker is `"Volume II"` yields
`(2, None)`. -/
theorem C6_volume_parsing :
    parse_volume "Foo (Vol. 2 of 3).pdf" = (some 2, some 3) ∧
    parse_volume "Foo Vol. 2 of 3.pdf" = (some 2, none) ∧
    parse_volume "History of Rome Volume II.pdf" = (some 2, none) := by
  decide

/-! ## Query-planner fallback (C5) -/

/-- C5 counterexample: for the question `"the and of"` (no anchor term,
no content words after stopword removal) with a search yielding no hits,
`main` logs only two tiers — ANCHOR (with the baseline query) and OR (with
the empty query string); the SINGLE tier is never attempted, so the claim
that all three tiers are listed fails. -/
theorem C5_claim_counterexample :
    (∀ t ∈ ANCHOR_TERMS, isSub t.data (pyLower "the and of".data) = false) ∧
    tokenize_for_fts "the and of" = [] ∧
    (planTiers (fun _ => []) "the and of").ids = [] ∧
    (planTiers (fun _ => []) "the and of").tried =
      [("ANCHOR", "predestination OR election OR grace OR justification OR faith"),
       ("OR", "")] ∧
    (planTiers (fun _ => []) "the and of").tried.length ≠ 3 := by
  decide

/-- C5 (amended): for every question that contains no anchor-vocabulary term
and whose tokenization leaves no content words, and whenever the baseline
anchor query also finds no hits, the planner returns zero chunk references
and records exactly two attempted tiers with their literal query strings:
anchor-first with the fixed baseline query, and broad OR with the empty
query; the single-term tier is never attempted (it requires surviving
content words). -/
theorem C5_query_fallback_exhaustion (q : String) (search : String → List String)
    (hanchor : ∀ t ∈ ANCHOR_TERMS, isSub t.data (pyLower q.data) = false)
    (htok : tokenize_for_fts q = [])
    (hsearch : search "predestination OR election OR grace OR justification OR faith" = []) :
    (planTiers search q).ids = [] ∧
    (planTiers search q).tried =
      [("ANCHOR", "predestination OR election OR grace OR justification OR faith"),
       ("OR", "")] := by
  have hfil : ANCHOR_TERMS.filter (fun t => isSub t.data (pyLower q.data)) = [] :=
    List.filter_eq_nil_iff.mpr (fun t ht => by simp [hanchor t ht])
  have hq : make_anchor_first_query q =
      "predestination OR election OR grace OR justification OR faith" := by
    simp only [make_anchor_first_query, hfil]
    rfl
  have hor : make_or_fts_query q 12 = "" := by
    simp only [make_or_fts_query, htok]
    rfl
  have hplan : planTiers search q =
      ⟨[("ANCHOR", "predestination OR election OR grace OR justification OR faith"),
        ("OR", "")], []⟩ := by
    simp only [planTiers, hq, hor, htok, hsearch]
    rfl
  rw [hplan]
  exact ⟨rfl, rfl⟩

/-- Witness for C5 at the concrete question and an empty store. -/
theorem C5_query_fallback_exhaustion_witness :
    ((∀ t ∈ ANCHOR_TERMS, isSub t.data (pyLower "what is it about".data) = false) ∧
     tokenize_for_fts "what is it about" = []) ∧
    ((planTiers (fun _ => []) "what is it about").ids = [] ∧
     (planTiers (fun _ => []) "what is it about").tried =
      [("ANCHOR", "predestination OR election OR grace OR justification OR faith"),
       ("OR", "")]) :=
  ⟨⟨by decide, by decide⟩,
   C5_query_fallback_exhaustion "what is it about" (fun _ => [])
     (by decide) (by decide) rfl⟩

/-! ## Idempotent re-ingestion (C1) -/

/-- C1: if the stored document record matches the current file stat
(`size_bytes` = `st_size` and `mtime_ns` = `st_mtime_ns`) and the normalized
artifact exists, the ingestion loop returns the state unchanged — no
artifact write, no doc upsert, no chunk delete or insert, no index change:
the file is skipped before any write. -/
theorem C1_skip_unchanged (st : IngestState) (rel : String) (size mtime : Nat)
    (raw : String) (row : DocRow)
    (hrow : st.docs.find? (fun r => r.doc_id == doc_id_for rel) = some row)
    (hsize : row.size_bytes = size) (hmtime : row.mtime_ns = mtime)
    (hfile : fileExists st.files (norm_path_for (doc_id_for rel)) = true) :
    ingestTxtStep st rel size mtime raw = st := by
  simp only [ingestTxtStep, hrow, hsize, hmtime, hfile]
  simp

/-- Witness for C1: a state holding a matching record and artifact for
`"a.txt"` is returned unchanged. -/
theorem C1_skip_unchanged_witness :
    ([⟨doc_id_for "a.txt", "a.txt", "/ai_data/ebooks/a.txt", "txt", 5, 7, "h",
        norm_path_for (doc_id_for "a.txt")⟩] : List DocRow).find?
      (fun r => r.doc_id == doc_id_for "a.txt") =
      some ⟨doc_id_for "a.txt", "a.txt", "/ai_data/ebooks/a.txt", "txt", 5, 7, "h",
        norm_path_for (doc_id_for "a.txt")⟩ ∧
    ingestTxtStep
      ⟨[⟨doc_id_for "a.txt", "a.txt", "/ai_data/ebooks/a.txt", "txt", 5, 7, "h",
          norm_path_for (doc_id_for "a.txt")⟩], ⟨[], []⟩,
        [(norm_path_for (doc_id_for "a.txt"), "x")]⟩
      "a.txt" 5 7 "raw content" =
      ⟨[⟨doc_id_for "a.txt", "a.txt", "/ai_data/ebooks/a.txt", "txt", 5, 7, "h",
          norm_path_for (doc_id_for "a.txt")⟩], ⟨[], []⟩,
        [(norm_path_for (doc_id_for "a.txt"), "x")]⟩ :=
  ⟨by decide,
   C1_skip_unchanged
     ⟨[⟨doc_id_for "a.txt", "a.txt", "/ai_data/ebooks/a.txt", "txt", 5, 7, "h",
         norm_path_for (doc_id_for "a.txt")⟩], ⟨[], []⟩,
       [(norm_path_for (doc_id_for "a.txt"), "x")]⟩
     "a.txt" 5 7 "raw content"
     ⟨doc_id_for "a.txt", "a.txt", "/ai_data/ebooks/a.txt", "txt", 5, 7, "h",
       norm_path_for (doc_id_for "a.txt")⟩
     (by decide) rfl rfl (by decide)⟩

/-! ## Index mirroring (C4) -/

theorem delete_mirror (st : Store) (d : String)
    (hm : st.fts = st.chunks.map ftsOf)
    (hn : (st.chunks.map (fun r => r.chunk_id)).Nodup) :
    (delete_chunks_for_doc st d).fts = (delete_chunks_for_doc st d).chunks.map ftsOf ∧
    (delete_chunks_for_doc st d).fts = st.fts.filter (fun f => !(f.doc_id == d)) := by
  have key : ∀ r ∈ st.chunks,
      (!((st.chunks.filter (fun x => x.doc_id == d)).any
        (fun x => x.chunk_id == (ftsOf r).chunk_id))) = (!(r.doc_id == d)) := by
    intro r hr
    by_cases hd : r.doc_id == d
    · have : (st.chunks.filter (fun x => x.doc_id == d)).any
          (fun x => x.chunk_id == (ftsOf r).chunk_id) = true :=
        List.any_eq_true.mpr ⟨r, List.mem_filter.mpr ⟨hr, hd⟩, by simp [ftsOf]⟩
      rw [this, hd]
    · have hd' : (r.doc_id == d) = false := by simpa using hd
      have : (st.chunks.filter (fun x => x.doc_id == d)).any
          (fun x => x.chunk_id == (ftsOf r).chunk_id) = false := by
        by_contra hc
        have hc' : (st.chunks.filter (fun x => x.doc_id == d)).any
            (fun x => x.chunk_id == (ftsOf r).chunk_id) = true := by
          simpa using hc
        obtain ⟨x, hx, hxe⟩ := List.any_eq_true.mp hc'
        obtain ⟨hxm, hxd⟩ := List.mem_filter.mp hx
        have hxr : x = r := by
          refine List.inj_on_of_nodup_map hn hxm hr ?_
          exact beq_iff_eq.mp hxe
        rw [hxr] at hxd
        rw [hxd] at hd'
        simp at hd'
      rw [this, hd']
  constructor
  · show st.fts.filter _ = (st.chunks.filter (fun r => !(r.doc_id == d))).map ftsOf
    rw [hm, List.filter_map ftsOf st.chunks]
    congr 1
    exact List.filter_congr key
  · show st.fts.filter _ = st.fts.filter (fun f => !(f.doc_id == d))
    conv_lhs => rw [hm]
    conv_rhs => rw [hm]
    rw [List.filter_map ftsOf st.chunks, List.filter_map ftsOf st.chunks]
    congr 1
    refine List.filter_congr ?_
    intro r hr
    simp only [Function.comp_apply]
    exact key r hr

theorem update_mirror (st : Store) (cid : String) (t : List Char)
    (hm : st.fts = st.chunks.map ftsOf) :
    (updateChunkText st cid t).fts = (updateChunkText st cid t).chunks.map ftsOf := by
  show st.fts.map _ = (st.chunks.map _).map ftsOf
  rw [hm, List.map_map, List.map_map]
  refine List.map_congr_left ?_
  intro r _
  by_cases hc : r.chunk_id = cid
  · simp [ftsOf, hc]
  · simp [ftsOf, hc]

/-- C4 counterexample: after ingesting a 5-chunk document and re-ingesting a
modified 3-chunk version whose paragraphs have the same sizes, the new
chunks' `(chunk_idx, start_char, end_char)` triples coincide with the first
three of the old ones, so all three "new" chunk ids are original ids — the
index then contains original chunk ids, contradicting "none of the original
5 chunk ids".  (`T = 10`, `O = 0`; the texts differ in every chunk.) -/
theorem C4_claim_counterexample :
    ("hhhhhhhh\n\niiiiiiii\n\njjjjjjjj" : String) ≠
      "aaaaaaaa\n\nbbbbbbbb\n\ncccccccc\n\ndddddddd\n\neeeeeeee" ∧
    (replace_doc_chunks ⟨[], []⟩ "d"
      "aaaaaaaa\n\nbbbbbbbb\n\ncccccccc\n\ndddddddd\n\neeeeeeee".data 10 0).chunks.length = 5 ∧
    (replace_doc_chunks (replace_doc_chunks ⟨[], []⟩ "d"
      "aaaaaaaa\n\nbbbbbbbb\n\ncccccccc\n\ndddddddd\n\neeeeeeee".data 10 0) "d"
      "hhhhhhhh\n\niiiiiiii\n\njjjjjjjj".data 10 0).chunks.length = 3 ∧
    ∃ f ∈ (replace_doc_chunks (replace_doc_chunks ⟨[], []⟩ "d"
      "aaaaaaaa\n\nbbbbbbbb\n\ncccccccc\n\ndddddddd\n\neeeeeeee".data 10 0) "d"
      "hhhhhhhh\n\niiiiiiii\n\njjjjjjjj".data 10 0).fts,
      f.chunk_id ∈ (replace_doc_chunks ⟨[], []⟩ "d"
        "aaaaaaaa\n\nbbbbbbbb\n\ncccccccc\n\ndddddddd\n\neeeeeeee".data 10 0).chunks.map
          (fun r => r.chunk_id) := by
  decide

/-- C4 (amended): the triggers give an exact 1:1 mirror — an insert adds
exactly the mirroring `chunks_fts` row and preserves the mirror invariant, a
delete (under chunk-id uniqueness, which the primary key enforces) removes
exactly the deleted chunks' rows and preserves the mirror, and an update
propagates; and in the 5-chunk-then-3-chunk re-ingestion scenario (here with
`T = 10`, `O = 0` and paragraph sizes that shift every offset) the index
holds exactly 3 entries for the document and none of the original 5 chunk
ids — the "none of the original ids" clause requires the new chunks'
`(chunk_idx, start_char, end_char)` triples to differ from the old ones,
since chunk ids are derived from offsets, not content. -/
theorem C4_index_mirror :
    (∀ (st : Store) (r : ChunkRow), (insertChunk st r).fts = st.fts ++ [ftsOf r]) ∧
    (∀ (st : Store) (r : ChunkRow), st.fts = st.chunks.map ftsOf →
      (insertChunk st r).fts = (insertChunk st r).chunks.map ftsOf) ∧
    (∀ (st : Store) (d : String), st.fts = st.chunks.map ftsOf →
      (st.chunks.map (fun x => x.chunk_id)).Nodup →
      (delete_chunks_for_doc st d).fts =
        (delete_chunks_for_doc st d).chunks.map ftsOf ∧
      (delete_chunks_for_doc st d).fts = st.fts.filter (fun f => !(f.doc_id == d))) ∧
    (∀ (st : Store) (cid : String) (t : List Char), st.fts = st.chunks.map ftsOf →
      (updateChunkText st cid t).fts = (updateChunkText st cid t).chunks.map ftsOf) ∧
    ((replace_doc_chunks ⟨[], []⟩ "d"
        "aaaaaaaa\n\nbbbbbbbb\n\ncccccccc\n\ndddddddd\n\neeeeeeee".data 10 0).chunks.length = 5 ∧
     (replace_doc_chunks (replace_doc_chunks ⟨[], []⟩ "d"
        "aaaaaaaa\n\nbbbbbbbb\n\ncccccccc\n\ndddddddd\n\neeeeeeee".data 10 0) "d"
        "hhhhhhhhh\n\niiiiiiiii\n\njjjjjjjjj".data 10 0).chunks.length = 3 ∧
     ((replace_doc_chunks (replace_doc_chunks ⟨[], []⟩ "d"
        "aaaaaaaa\n\nbbbbbbbb\n\ncccccccc\n\ndddddddd\n\neeeeeeee".data 10 0) "d"
        "hhhhhhhhh\n\niiiiiiiii\n\njjjjjjjjj".data 10 0).fts.filter
          (fun f => f.doc_id == "d")).length = 3 ∧
     (replace_doc_chunks (replace_doc_chunks ⟨[], []⟩ "d"
        "aaaaaaaa\n\nbbbbbbbb\n\ncccccccc\n\ndddddddd\n\neeeeeeee".data 10 0) "d"
        "hhhhhhhhh\n\niiiiiiiii\n\njjjjjjjjj".data 10 0).fts =
       (replace_doc_chunks (replace_doc_chunks ⟨[], []⟩ "d"
        "aaaaaaaa\n\nbbbbbbbb\n\ncccccccc\n\ndddddddd\n\neeeeeeee".data 10 0) "d"
        "hhhhhhhhh\n\niiiiiiiii\n\njjjjjjjjj".data 10 0).chunks.map ftsOf ∧
     ∀ f ∈ (replace_doc_chunks (replace_doc_chunks ⟨[], []⟩ "d"
        "aaaaaaaa\n\nbbbbbbbb\n\ncccccccc\n\ndddddddd\n\neeeeeeee".data 10 0) "d"
        "hhhhhhhhh\n\niiiiiiiii\n\njjjjjjjjj".data 10 0).fts,
       f.chunk_id ∉ (replace_doc_chunks ⟨[], []⟩ "d"
        "aaaaaaaa\n\nbbbbbbbb\n\ncccccccc\n\ndddddddd\n\neeeeeeee".data 10 0).chunks.map
          (fun r => r.chunk_id)) := by
  refine ⟨fun st r => rfl, ?_, ?_, ?_, ?_⟩
  · intro st r h
    show st.fts ++ [ftsOf r] = (st.chunks ++ [r]).map ftsOf
    rw [List.map_append, h]
    rfl
  · intro st d h hn
    exact delete_mirror st d h hn
  · intro st cid t h
    exact update_mirror st cid t h
  · decide

/-- Witness for C4: the delete conjunct applied to a concrete two-document
store with unique ids. -/
theorem C4_index_mirror_witness :
    ((⟨[⟨"c1", "d", 0, 0, 4, "aa".data⟩, ⟨"c2", "e", 0, 0, 4, "bb".data⟩],
       [⟨"c1", "d", "aa".data⟩, ⟨"c2", "e", "bb".data⟩]⟩ : Store).fts =
      (⟨[⟨"c1", "d", 0, 0, 4, "aa".data⟩, ⟨"c2", "e", 0, 0, 4, "bb".data⟩],
       [⟨"c1", "d", "aa".data⟩, ⟨"c2", "e", "bb".data⟩]⟩ : Store).chunks.map ftsOf) ∧
    ((delete_chunks_for_doc
        ⟨[⟨"c1", "d", 0, 0, 4, "aa".data⟩, ⟨"c2", "e", 0, 0, 4, "bb".data⟩],
         [⟨"c1", "d", "aa".data⟩, ⟨"c2", "e", "bb".data⟩]⟩ "d").fts =
      (delete_chunks_for_doc
        ⟨[⟨"c1", "d", 0, 0, 4, "aa".data⟩, ⟨"c2", "e", 0, 0, 4, "bb".data⟩],
         [⟨"c1", "d", "aa".data⟩, ⟨"c2", "e", "bb".data⟩]⟩ "d").chunks.map ftsOf ∧
     (delete_chunks_for_doc
        ⟨[⟨"c1", "d", 0, 0, 4, "aa".data⟩, ⟨"c2", "e", 0, 0, 4, "bb".data⟩],
         [⟨"c1", "d", "aa".data⟩, ⟨"c2", "e", "bb".data⟩]⟩ "d").fts =
      ([⟨"c1", "d", "aa".data⟩, ⟨"c2", "e", "bb".data⟩] : List FtsRow).filter
        (fun f => !(f.doc_id == "d"))) :=
  ⟨by decide,
   C4_index_mirror.2.2.1
     ⟨[⟨"c1", "d", 0, 0, 4, "aa".data⟩, ⟨"c2", "e", 0, 0, 4, "bb".data⟩],
      [⟨"c1", "d", "aa".data⟩, ⟨"c2", "e", "bb".data⟩]⟩ "d"
     (by decide) (by decide)⟩
